import Mathlib

/-!
# cryptoalgo: affine byte cipher and reduced Feistel cipher

A shallow embedding of the two Go programs of the repository and the
properties stated about them.

* `src/affine.go` (namespace `Affine`): `mod`, `gcd`, `encrypt`, `decrypt`,
  `attack`.
* `src/rdes.go` (namespace `Rdes`): `f`, `encryptByte`, `decryptByte`,
  `encrypt`, `decrypt`, `keyScheduler`.

Conventions of the embedding.

* A Go `byte` is a natural number below 256; a byte buffer is a `List Nat`
  whose elements are below 256 (`IsBytes`).  Byte operations that can leave
  the range (`r << 4`) are reduced modulo 256 explicitly.
* A Go `int` is a 64-bit two's complement integer: it is an `Int`, and every
  arithmetic operation of the source that can leave the range is wrapped with
  `wrapInt`.
* Go's `%` truncates toward zero: it is `Int.tmod`.
* A Go panic is a value of `Panic`; a function that can panic returns
  `Except Panic _`.
* `gcd` is a loop that need not terminate.  It takes a `fuel` argument, the
  number of loop iterations it may run, and returns `none` when the fuel does
  not suffice.  "The call returns `r`" is `∃ fuel, gcd fuel a b = some r`, and
  "the call diverges" is `∀ fuel, gcd fuel a b = none`.
-/

set_option autoImplicit false

/-- A buffer of Go bytes: every element is below 256. -/
def IsBytes (buf : List Nat) : Prop := ∀ x ∈ buf, x < 256

instance (buf : List Nat) : Decidable (IsBytes buf) := by
  unfold IsBytes; infer_instance

namespace Affine

/-- Two's complement wrap-around of a 64-bit Go `int`. -/
def wrapInt (x : Int) : Int := (x + 2 ^ 63) % 2 ^ 64 - 2 ^ 63

/-- Go conversion `byte(v)` of an `int`: the low eight bits. -/
def toByte (v : Int) : Nat := (v % 256).toNat

/-- The ways in which the functions of `affine.go` panic. -/
inductive Panic where
  /-- `big.Int.ModInverse` returned `nil` (the key has no inverse) and
  `decrypt` called `.Int64()` on it: a nil pointer dereference. -/
  | invalidKey
  /-- `attack` indexed `input[0]` or `input[1]` past the end of the buffer. -/
  | indexOutOfRange
  /-- `panic("Unable to find encryption keys!")` in `attack`. -/
  | keyRecovery
  deriving DecidableEq, Repr

/-- `mod` of `affine.go`: `r := a % z; if r < 0 { r = z + r }; return r`.
Every call site passes `z = 256`; Go's division panic at `z = 0` is not
modelled. -/
def mod (a z : Int) : Int :=
  let r := Int.tmod a z
  if r < 0 then wrapInt (z + r) else r

/-- `gcd` of `affine.go`: the subtraction loop
`for a != b { if a > b { a -= b } else { b -= a } }; return a`,
run for at most `fuel` iterations. -/
def gcd : Nat → Int → Int → Option Int
  | 0, a, b => if a = b then some a else none
  | fuel + 1, a, b =>
    if a = b then some a
    else if a > b then gcd fuel (wrapInt (a - b)) b
    else gcd fuel a (wrapInt (b - a))

/-- Go standard library `big.Int.ModInverse(g, n)` for `n > 0`, after its
documentation: the multiplicative inverse of `g` in the ring of integers
modulo `n`, as the representative in `[0, n)`, and `nil` (here `none`) when
`g` and `n` are not relatively prime. -/
def modInverse (g n : Int) : Option Int :=
  ((List.range n.toNat).find? fun (i : Nat) => ((g % n) * (i : Int)) % n = 1).map Int.ofNat

/-- The byte that `encrypt` appends for the input byte `c`:
`byte(mod(a*x+b, 256))` with `x := int(c)`. -/
def encByte (a b : Int) (c : Nat) : Nat :=
  toByte (mod (wrapInt (wrapInt (a * (c : Int)) + b)) 256)

/-- `encrypt` of `affine.go`: the loop appends one byte per input byte. -/
def encrypt (input : List Nat) (a b : Int) : List Nat :=
  input.foldl (fun output c => output ++ [encByte a b c]) []

/-- The byte that `decrypt` appends for the input byte `c`:
`byte(mod(aInv*x-aInv*b, 256))` with `x := int(c)`. -/
def decByte (aInv b : Int) (c : Nat) : Nat :=
  toByte (mod (wrapInt (wrapInt (aInv * (c : Int)) - wrapInt (aInv * b))) 256)

/-- `decrypt` of `affine.go`.  The inverse is computed before the loop, so a
key without inverse panics on every buffer, the empty one included. -/
def decrypt (input : List Nat) (a b : Int) : Except Panic (List Nat) :=
  match modInverse a 256 with
  | none => .error .invalidKey
  | some aInv => .ok (input.foldl (fun output c => output ++ [decByte aInv b c]) [])

/-- First loop of `attack` over the remaining values of `i`, with the current
value of `a`.  `none`: a call of `gcd` ran out of fuel. -/
def findA (fuel : Nat) (diffYZ : Int) : List Nat → Int → Option Int
  | [], a => some a
  | i :: rest, a =>
    if diffYZ = mod (39 * (i : Int)) 256 then
      match gcd fuel 256 i with
      | none => none
      | some g => findA fuel diffYZ rest (if g = 1 then (i : Int) else a)
    else findA fuel diffYZ rest a

/-- Second loop of `attack` over the remaining values of `i`, with the
current value of `b`. -/
def findB (a y : Int) : List Nat → Int → Int
  | [], b => b
  | i :: rest, b =>
    if Int.tmod (255 * a + (i : Int)) 256 = y then findB a y rest i
    else findB a y rest b

/-- `attack` of `affine.go`.  The values of the two loops stay far below
`2 ^ 63`, so their arithmetic needs no wrap-around.  `none`: a call of `gcd`
ran out of fuel. -/
def attack (fuel : Nat) (input : List Nat) : Option (Except Panic (List Nat)) :=
  match input with
  | [] => some (.error .indexOutOfRange)
  | [_] => some (.error .indexOutOfRange)
  | c0 :: c1 :: _ =>
    let y := Int.tmod (c0 : Int) 256
    let z := Int.tmod (c1 : Int) 256
    let diffYZ := mod (y - z) 256
    match findA fuel diffYZ (List.range 256) (-1) with
    | none => none
    | some a =>
      let b := findB a y (List.range 256) (-1)
      if a = -1 ∨ b = -1 then some (.error .keyRecovery)
      else some (decrypt input a b)

end Affine

namespace Rdes

/-- `f` of `rdes.go`: the round function. -/
def f (input k1 k2 k3 : Nat) (round : Int) : Nat :=
  if round = 0 then input ^^^ k1
  else if round = 1 then input ^^^ k2
  else input ^^^ k3

/-- One Feistel step `l, r = r, f(r, k1, k2, k3, rnd)^l`. -/
def step (k1 k2 k3 : Nat) (lr : Nat × Nat) (rnd : Int) : Nat × Nat :=
  (lr.2, f lr.2 k1 k2 k3 rnd ^^^ lr.1)

/-- `encryptByte` of `rdes.go`: rounds 0, 1, 2, then `r<<4 | l` as a byte. -/
def encryptByte (input k1 k2 k3 : Nat) : Nat :=
  let l := input >>> 4
  let r := input &&& (1 <<< 0 ||| 1 <<< 1 ||| 1 <<< 2 ||| 1 <<< 3)
  let lr := [0, 1, 2].foldl (step k1 k2 k3) (l, r)
  (lr.2 <<< 4) % 256 ||| lr.1

/-- `decryptByte` of `rdes.go`: rounds 2, 1, 0, then `r<<4 | l` as a byte. -/
def decryptByte (input k1 k2 k3 : Nat) : Nat :=
  let l := input >>> 4
  let r := input &&& (1 <<< 0 ||| 1 <<< 1 ||| 1 <<< 2 ||| 1 <<< 3)
  let lr := [2, 1, 0].foldl (step k1 k2 k3) (l, r)
  (lr.2 <<< 4) % 256 ||| lr.1

/-- `encrypt` of `rdes.go`: the loop appends one byte per input byte. -/
def encrypt (input : List Nat) (k1 k2 k3 : Nat) : List Nat :=
  input.foldl (fun output c => output ++ [encryptByte c k1 k2 k3]) []

/-- `decrypt` of `rdes.go`: the loop appends one byte per input byte. -/
def decrypt (input : List Nat) (k1 k2 k3 : Nat) : List Nat :=
  input.foldl (fun output c => output ++ [decryptByte c k1 k2 k3]) []

/-- `keyScheduler` of `rdes.go`; `key` is a `uint64`, each nibble is
converted with `byte(...)`. -/
def keyScheduler (key : Nat) : Nat × Nat × Nat :=
  let k1to4 := ((key &&& (1 <<< 8 ||| 1 <<< 9 ||| 1 <<< 10 ||| 1 <<< 11)) >>> 8) % 256
  let k5to8 := ((key &&& (1 <<< 4 ||| 1 <<< 5 ||| 1 <<< 6 ||| 1 <<< 7)) >>> 4) % 256
  let k9to12 := ((key &&& (1 <<< 0 ||| 1 <<< 1 ||| 1 <<< 2 ||| 1 <<< 3)) >>> 0) % 256
  (k1to4 ^^^ k5to8, k5to8 ^^^ k9to12, k9to12 ^^^ k1to4)

/-- The key schedule in the words of the specification: `n1` is bits 8-11,
`n2` bits 4-7 and `n3` bits 0-3 of the key. -/
def keyScheduleSpec (key : Nat) : Nat × Nat × Nat :=
  let n1 := key / 2 ^ 8 % 16
  let n2 := key / 2 ^ 4 % 16
  let n3 := key % 16
  (n1 ^^^ n2, n2 ^^^ n3, n3 ^^^ n1)

end Rdes

/-! ## Auxiliary facts: machine integers and `mod` -/

namespace Affine

theorem wrapInt_emod (x : Int) : wrapInt x % 256 = x % 256 := by
  unfold wrapInt; omega

theorem wrapInt_of_range (x : Int) (h1 : -2 ^ 63 ≤ x) (h2 : x < 2 ^ 63) : wrapInt x = x := by
  unfold wrapInt; omega

/-- Go's truncated remainder against the Euclidean one, by the sign of the
dividend. -/
theorem tmod_cases (a z : Int) (hz : 0 < z) :
    (0 ≤ a ∧ Int.tmod a z = a % z) ∨
      (a < 0 ∧ -z < Int.tmod a z ∧ Int.tmod a z ≤ 0) := by
  rcases Int.lt_or_le a 0 with ha | ha
  · right
    obtain ⟨m, rfl⟩ : ∃ m : Nat, a = Int.negSucc m := Int.eq_negSucc_of_lt_zero ha
    obtain ⟨n, rfl⟩ : ∃ n : Nat, z = (n : Int) := Int.eq_ofNat_of_zero_le (Int.le_of_lt hz)
    have h1 : Int.tmod (Int.negSucc m) (n : Int) = -(((m + 1) % n : Nat) : Int) := rfl
    have h2 : (m + 1) % n < n := Nat.mod_lt _ (by omega)
    rw [h1]
    exact ⟨ha, by omega, by omega⟩
  · left
    exact ⟨ha, Int.tmod_eq_emod ha (Int.le_of_lt hz)⟩

/-- For a positive modulus `mod` is the Euclidean remainder. -/
theorem mod_eq_emod (a z : Int) (hz : 0 < z) (hz2 : z < 2 ^ 63) : mod a z = a % z := by
  unfold mod
  rcases tmod_cases a z hz with ⟨ha, h⟩ | ⟨ha, h1, h2⟩
  · have := Int.emod_nonneg a (Int.ne_of_gt hz)
    simp only [h]
    rw [if_neg (by omega)]
  · simp only []
    split
    · rw [wrapInt_of_range _ (by omega) (by omega)]
      have hq := Int.tmod_add_tdiv a z
      have : a = (z + Int.tmod a z) + z * (Int.tdiv a z - 1) := by
        rw [Int.mul_sub]; omega
      conv_rhs => rw [this]
      rw [Int.add_mul_emod_self_left]
      exact (Int.emod_eq_of_lt (by omega) (by omega)).symm
    · have h0 : Int.tmod a z = 0 := by omega
      rw [h0]
      exact (Int.emod_eq_zero_of_dvd (Int.dvd_of_tmod_eq_zero h0)).symm

theorem mod_256 (a : Int) : mod a 256 = a % 256 :=
  mod_eq_emod a 256 (by decide) (by decide)

theorem toByte_mod_256 (v : Int) : toByte (mod v 256) = (v % 256).toNat := by
  rw [mod_256]; unfold toByte; rw [Int.emod_emod_of_dvd v (Int.dvd_refl 256)]

/-- Closed form of the byte produced by `encrypt`: wrap-around does not
change the residue modulo 256. -/
theorem encByte_eq (a b : Int) (c : Nat) :
    encByte a b c = ((a * (c : Int) + b) % 256).toNat := by
  unfold encByte
  rw [toByte_mod_256, wrapInt_emod, Int.add_emod, wrapInt_emod, ← Int.add_emod]

/-- Closed form of the byte produced by `decrypt`. -/
theorem decByte_eq (aInv b : Int) (c : Nat) :
    decByte aInv b c = ((aInv * (c : Int) - aInv * b) % 256).toNat := by
  unfold decByte
  rw [toByte_mod_256, wrapInt_emod, Int.sub_emod, wrapInt_emod, wrapInt_emod, ← Int.sub_emod]

theorem encByte_lt (a b : Int) (c : Nat) : encByte a b c < 256 := by
  rw [encByte_eq]; omega

theorem decByte_lt (aInv b : Int) (c : Nat) : decByte aInv b c < 256 := by
  rw [decByte_eq]; omega

end Affine

/-- An append loop over a buffer is the map of its body. -/
theorem foldl_append_eq_map (g : Nat → Nat) (input acc : List Nat) :
    input.foldl (fun output c => output ++ [g c]) acc = acc ++ input.map g := by
  induction input generalizing acc with
  | nil => simp
  | cons c rest ih => simp [ih]

/-! ## Auxiliary facts: invertible keys -/

namespace Affine

/-- Coprimality with 256 is oddness. -/
theorem gcd_256_eq_one_iff (a : Int) : Int.gcd a 256 = 1 ↔ a % 2 = 1 := by
  constructor
  · intro h
    by_contra hodd
    have h2a : (2 : Int) ∣ a := Int.dvd_of_emod_eq_zero (by omega)
    have h2 : (2 : Int) ∣ 256 := ⟨128, by decide⟩
    have hd : (2 : Int) ∣ ((Int.gcd a 256 : Nat) : Int) := Int.dvd_gcd h2a h2
    rw [h] at hd
    omega
  · intro h
    have hodd : Odd a.natAbs := by
      rw [Nat.odd_iff]; omega
    have hc : Nat.Coprime a.natAbs (2 ^ 8) :=
      Nat.Coprime.pow_right 8 (Nat.coprime_two_right.mpr hodd)
    rw [Int.gcd_eq_natAbs]
    exact hc

/-- What `modInverse` returns, it found in `[0, n)` as an inverse. -/
theorem modInverse_some (g n i : Int) (h : modInverse g n = some i) :
    0 ≤ i ∧ i < n ∧ (g * i) % n = 1 := by
  unfold modInverse at h
  rw [Option.map_eq_some'] at h
  obtain ⟨k, hk, rfl⟩ := h
  have hp := List.find?_some hk
  have hmem := List.mem_of_find?_eq_some hk
  rw [List.mem_range] at hmem
  simp only [decide_eq_true_eq] at hp
  refine ⟨Int.ofNat_nonneg k, by simp only [Int.ofNat_eq_coe]; omega, ?_⟩
  rw [Int.mul_emod, Int.emod_emod_of_dvd _ (Int.dvd_refl n), ← Int.mul_emod] at hp
  exact hp

/-- Without inverse in `[0, n)`, there is no result. -/
theorem modInverse_none (g n : Int) (h : modInverse g n = none) (i : Nat) (hi : (i : Int) < n) :
    (g * (i : Int)) % n ≠ 1 := by
  unfold modInverse at h
  rw [Option.map_eq_none', List.find?_eq_none] at h
  have := h i (List.mem_range.mpr (by omega))
  simp only [decide_eq_true_eq] at this
  rw [Int.mul_emod, Int.emod_emod_of_dvd _ (Int.dvd_refl n), ← Int.mul_emod] at this
  exact this

/-- An odd key has an inverse modulo 256. -/
theorem modInverse_odd (a : Int) (h : a % 2 = 1) :
    ∃ aInv, modInverse a 256 = some aInv ∧ 0 ≤ aInv ∧ aInv < 256 ∧ (a * aInv) % 256 = 1 := by
  cases hm : modInverse a 256 with
  | some i => exact ⟨i, rfl, modInverse_some a 256 i hm⟩
  | none =>
    exfalso
    have hg : Int.gcd a 256 = 1 := (gcd_256_eq_one_iff a).mpr h
    have hb := Int.gcd_eq_gcd_ab a 256
    rw [hg] at hb
    have hlt : Int.gcdA a 256 % 256 < 256 := Int.emod_lt_of_pos _ (by decide)
    have hnn : 0 ≤ Int.gcdA a 256 % 256 := Int.emod_nonneg _ (by decide)
    have := modInverse_none a 256 hm (Int.gcdA a 256 % 256).toNat (by omega)
    apply this
    rw [Int.toNat_of_nonneg hnn, Int.mul_emod, Int.emod_emod_of_dvd _ (Int.dvd_refl 256),
      ← Int.mul_emod]
    have : a * Int.gcdA a 256 = 1 + 256 * (- Int.gcdB a 256) := by
      have h1 : ((1 : Nat) : Int) = 1 := rfl
      rw [h1] at hb
      rw [Int.mul_neg]; omega
    rw [this, Int.add_mul_emod_self_left]
    decide

/-- An even key has none. -/
theorem modInverse_even (a : Int) (h : a % 2 = 0) : modInverse a 256 = none := by
  cases hm : modInverse a 256 with
  | none => rfl
  | some i =>
    exfalso
    have := (modInverse_some a 256 i hm).2.2
    have h2 : (a * i) % 256 % 2 = (a * i) % 2 := Int.emod_emod_of_dvd _ ⟨128, by decide⟩
    rw [this, Int.mul_emod, h] at h2
    simp at h2

theorem encrypt_eq_map (input : List Nat) (a b : Int) :
    encrypt input a b = input.map (encByte a b) := by
  unfold encrypt; rw [foldl_append_eq_map]; rfl

theorem decrypt_eq_map (input : List Nat) (a b aInv : Int) (h : modInverse a 256 = some aInv) :
    decrypt input a b = .ok (input.map (decByte aInv b)) := by
  unfold decrypt; rw [h]; simp only [foldl_append_eq_map]; rfl

/-- Decrypting an encrypted byte with an inverse of the key gives it back. -/
theorem decByte_encByte (a b aInv : Int) (c : Nat) (hc : c < 256)
    (hinv : (a * aInv) % 256 = 1) : decByte aInv b (encByte a b c) = c := by
  rw [decByte_eq, encByte_eq]
  have hnn : 0 ≤ (a * (c : Int) + b) % 256 := Int.emod_nonneg _ (by decide)
  rw [Int.toNat_of_nonneg hnn]
  have key : (aInv * ((a * (c : Int) + b) % 256) - aInv * b) % 256 = (c : Int) % 256 := by
    have e1 : aInv * (a * (c : Int) + b) - aInv * b = (a * aInv) * c := by ring
    rw [Int.sub_emod, Int.mul_emod, Int.emod_emod_of_dvd _ (Int.dvd_refl 256), ← Int.mul_emod,
      ← Int.sub_emod, e1, Int.mul_emod, hinv, Int.one_mul,
      Int.emod_emod_of_dvd _ (Int.dvd_refl 256)]
  rw [key]
  omega

end Affine

/-! ## Auxiliary facts: the subtraction loop `gcd` -/

namespace Affine

/-- On positive arguments the loop returns the greatest common divisor after
at most `max m n - 1` iterations. -/
theorem gcd_returns (fuel : Nat) : ∀ m n : Nat, 0 < m → 0 < n → m < 2 ^ 63 → n < 2 ^ 63 →
    max m n ≤ fuel + 1 → gcd fuel (m : Int) (n : Int) = some ((Nat.gcd m n : Nat) : Int) := by
  induction fuel with
  | zero =>
    intro m n hm hn _ _ hf
    have h1 : m = 1 := by omega
    have h2 : n = 1 := by omega
    subst h1; subst h2
    rfl
  | succ k ih =>
    intro m n hm hn hm2 hn2 hf
    unfold gcd
    by_cases he : (m : Int) = (n : Int)
    · rw [if_pos he]
      have : m = n := by omega
      subst this
      rw [Nat.gcd_self]
    · rw [if_neg he]
      by_cases hgt : (m : Int) > (n : Int)
      · rw [if_pos hgt, wrapInt_of_range _ (by omega) (by omega)]
        have hle : n ≤ m := by omega
        have hc : (m : Int) - (n : Int) = ((m - n : Nat) : Int) := by omega
        rw [hc, ih (m - n) n (by omega) hn (by omega) hn2 (by omega),
          Nat.gcd_sub_self_left hle]
      · rw [if_neg hgt, wrapInt_of_range _ (by omega) (by omega)]
        have hle : m ≤ n := by omega
        have hc : (n : Int) - (m : Int) = ((n - m : Nat) : Int) := by omega
        rw [hc, ih m (n - m) hm (by omega) hm2 (by omega) (by omega),
          Nat.gcd_sub_self_right hle]

/-- With a zero second argument the loop subtracts zero for ever. -/
theorem gcd_256_zero (fuel : Nat) : gcd fuel 256 0 = none := by
  induction fuel with
  | zero => rfl
  | succ k ih =>
    unfold gcd
    rw [if_neg (by decide), if_pos (by decide)]
    have : wrapInt (256 - 0) = 256 := by decide
    rw [this]
    exact ih

/-- The coprimality test of `attack` on a value of `i` other than zero. -/
theorem gcd_256_returns (fuel i : Nat) (hf : 255 ≤ fuel) (h0 : 0 < i) (hi : i < 256) :
    ∃ g, gcd fuel 256 (i : Int) = some g ∧ (g = 1 ↔ i % 2 = 1) := by
  have h := gcd_returns fuel 256 i (by decide) h0 (by decide) (by omega) (by omega)
  refine ⟨_, h, ?_⟩
  have hg := gcd_256_eq_one_iff (i : Int)
  rw [Int.gcd_comm] at hg
  have e : Int.gcd 256 (i : Int) = Nat.gcd 256 i := rfl
  rw [e] at hg
  constructor
  · intro h1
    have : Nat.gcd 256 i = 1 := by exact_mod_cast h1
    have := hg.mp this
    omega
  · intro h1
    have : Nat.gcd 256 i = 1 := hg.mpr (by omega)
    rw [this]; rfl

end Affine

/-! ## Auxiliary facts: the two search loops of `attack` -/

namespace Affine

/-- The first loop leaves `a` alone on values that fail the congruence. -/
theorem findA_skip (fuel : Nat) (d : Int) (l : List Nat) (a : Int)
    (h : ∀ i ∈ l, d ≠ mod (39 * (i : Int)) 256) : findA fuel d l a = some a := by
  induction l with
  | nil => rfl
  | cons i rest ih =>
    unfold findA
    rw [if_neg (h i (List.mem_cons_self i rest))]
    exact ih (fun j hj => h j (List.mem_cons_of_mem i hj))

/-- The first loop when exactly one value `i0` of the scan meets the
congruence and its `gcd` call returns `g`. -/
theorem findA_unique (fuel : Nat) (d : Int) (i0 : Nat) (g : Int)
    (hd : d = mod (39 * (i0 : Int)) 256) (hg : gcd fuel 256 (i0 : Int) = some g) :
    ∀ (l : List Nat) (a : Int), l.Nodup → i0 ∈ l →
      (∀ i ∈ l, d = mod (39 * (i : Int)) 256 → i = i0) →
      findA fuel d l a = some (if g = 1 then (i0 : Int) else a) := by
  intro l
  induction l with
  | nil => intro a _ hmem; cases hmem
  | cons i rest ih =>
    intro a hnd hmem huniq
    rw [List.nodup_cons] at hnd
    unfold findA
    by_cases hi : i = i0
    · subst hi
      rw [if_pos hd, hg]
      simp only []
      apply findA_skip
      intro j hj hdj
      have := huniq j (List.mem_cons_of_mem i hj) hdj
      subst this
      exact hnd.1 hj
    · have hne : d ≠ mod (39 * (i : Int)) 256 :=
        fun hdi => hi (huniq i (List.mem_cons_self i rest) hdi)
      rw [if_neg hne]
      have hmem2 : i0 ∈ rest := by
        rcases List.mem_cons.mp hmem with h | h
        · exact absurd h.symm hi
        · exact h
      exact ih a hnd.2 hmem2 (fun j hj => huniq j (List.mem_cons_of_mem i hj))

/-- The first loop when the one value that meets the congruence has a `gcd`
call that does not return. -/
theorem findA_stuck (fuel : Nat) (d : Int) (i0 : Nat)
    (hd : d = mod (39 * (i0 : Int)) 256) (hg : gcd fuel 256 (i0 : Int) = none) :
    ∀ (l : List Nat) (a : Int), i0 ∈ l →
      (∀ i ∈ l, d = mod (39 * (i : Int)) 256 → i = i0) →
      findA fuel d l a = none := by
  intro l
  induction l with
  | nil => intro a hmem; cases hmem
  | cons i rest ih =>
    intro a hmem huniq
    unfold findA
    by_cases hi : i = i0
    · subst hi
      rw [if_pos hd, hg]
    · have hne : d ≠ mod (39 * (i : Int)) 256 :=
        fun hdi => hi (huniq i (List.mem_cons_self i rest) hdi)
      rw [if_neg hne]
      have hmem2 : i0 ∈ rest := by
        rcases List.mem_cons.mp hmem with h | h
        · exact absurd h.symm hi
        · exact h
      exact ih a hmem2 (fun j hj => huniq j (List.mem_cons_of_mem i hj))

/-- The second loop leaves `b` alone on values that fail its test. -/
theorem findB_skip (a y : Int) (l : List Nat) (b : Int)
    (h : ∀ i ∈ l, Int.tmod (255 * a + (i : Int)) 256 ≠ y) : findB a y l b = b := by
  induction l with
  | nil => rfl
  | cons i rest ih =>
    unfold findB
    rw [if_neg (h i (List.mem_cons_self i rest))]
    exact ih (fun j hj => h j (List.mem_cons_of_mem i hj))

/-- The second loop when exactly one value `i0` of the scan meets its test. -/
theorem findB_unique (a y : Int) (i0 : Nat) (hy : Int.tmod (255 * a + (i0 : Int)) 256 = y) :
    ∀ (l : List Nat) (b : Int), l.Nodup → i0 ∈ l →
      (∀ i ∈ l, Int.tmod (255 * a + (i : Int)) 256 = y → i = i0) →
      findB a y l b = (i0 : Int) := by
  intro l
  induction l with
  | nil => intro b _ hmem; cases hmem
  | cons i rest ih =>
    intro b hnd hmem huniq
    rw [List.nodup_cons] at hnd
    unfold findB
    by_cases hi : i = i0
    · subst hi
      rw [if_pos hy]
      apply findB_skip
      intro j hj hdj
      have := huniq j (List.mem_cons_of_mem i hj) hdj
      subst this
      exact hnd.1 hj
    · have hne : Int.tmod (255 * a + (i : Int)) 256 ≠ y :=
        fun hdi => hi (huniq i (List.mem_cons_self i rest) hdi)
      rw [if_neg hne]
      have hmem2 : i0 ∈ rest := by
        rcases List.mem_cons.mp hmem with h | h
        · exact absurd h.symm hi
        · exact h
      exact ih b hnd.2 hmem2 (fun j hj => huniq j (List.mem_cons_of_mem i hj))

/-- Multiplication by 39 is injective modulo 256 on `[0, 256)`. -/
theorem mul39_inj (i j : Nat) (hi : i < 256) (hj : j < 256)
    (h : mod (39 * (i : Int)) 256 = mod (39 * (j : Int)) 256) : i = j := by
  rw [mod_256, mod_256] at h
  omega

end Affine

/-! ## Auxiliary facts: `attack` by the difference of the leading bytes -/

namespace Affine

/-- When the leading bytes admit an odd `a0` and a `b0` in `[0, 256)` that meet
the two congruences, `attack` finds them and decrypts with them. -/
theorem attack_of_keys (fuel c0 c1 a0 b0 : Nat) (rest : List Nat) (hf : 255 ≤ fuel)
    (hc0 : c0 < 256) (hc1 : c1 < 256) (ha : a0 < 256) (hb : b0 < 256) (hodd : a0 % 2 = 1)
    (hda : (39 * (a0 : Int)) % 256 = ((c0 : Int) - (c1 : Int)) % 256)
    (hdb : (255 * (a0 : Int) + (b0 : Int)) % 256 = (c0 : Int)) :
    attack fuel (c0 :: c1 :: rest) = some (decrypt (c0 :: c1 :: rest) a0 b0) := by
  have hy : Int.tmod (c0 : Int) 256 = c0 := Int.tmod_eq_of_lt (by omega) (by omega)
  have hz : Int.tmod (c1 : Int) 256 = c1 := Int.tmod_eq_of_lt (by omega) (by omega)
  have hA : findA fuel (mod ((c0 : Int) - (c1 : Int)) 256) (List.range 256) (-1)
      = some (a0 : Int) := by
    obtain ⟨g, hg, hg1⟩ := gcd_256_returns fuel a0 hf (by omega) ha
    have hd : mod ((c0 : Int) - (c1 : Int)) 256 = mod (39 * (a0 : Int)) 256 := by
      rw [mod_256, mod_256]; exact hda.symm
    rw [findA_unique fuel _ a0 g hd hg (List.range 256) (-1) (List.nodup_range 256)
      (List.mem_range.mpr ha)
      (fun i hi h => mul39_inj i a0 (List.mem_range.mp hi) ha (hd ▸ h).symm),
      if_pos (hg1.mpr hodd)]
  have hB : findB (a0 : Int) (c0 : Int) (List.range 256) (-1) = (b0 : Int) := by
    have ht : ∀ i : Nat, Int.tmod (255 * (a0 : Int) + (i : Int)) 256
        = (255 * (a0 : Int) + (i : Int)) % 256 :=
      fun i => Int.tmod_eq_emod (by omega) (by decide)
    apply findB_unique (a0 : Int) (c0 : Int) b0 (by rw [ht]; exact hdb) (List.range 256) (-1)
      (List.nodup_range 256) (List.mem_range.mpr hb)
    intro i hi h
    rw [ht] at h
    have := List.mem_range.mp hi
    omega
  unfold attack
  simp only [hy, hz, hA, hB]
  rw [if_neg (by omega)]

/-- When the leading bytes are equal, the first loop calls `gcd(256, 0)` at
`i = 0` and never gets past it. -/
theorem attack_equal_leading (fuel c : Nat) (rest : List Nat) :
    attack fuel (c :: c :: rest) = none := by
  have hA : findA fuel (mod (Int.tmod (c : Int) 256 - Int.tmod (c : Int) 256) 256)
      (List.range 256) (-1) = none := by
    have hd : mod (Int.tmod (c : Int) 256 - Int.tmod (c : Int) 256) 256
        = mod (39 * ((0 : Nat) : Int)) 256 := by
      rw [Int.sub_self]; rfl
    apply findA_stuck fuel _ 0 hd (gcd_256_zero fuel) (List.range 256) (-1)
      (List.mem_range.mpr (by decide))
    intro i hi h
    exact mul39_inj i 0 (List.mem_range.mp hi) (by decide) (hd ▸ h).symm
  unfold attack
  simp only [hA]

/-- When the leading bytes differ by an even amount, the one candidate for
`a` is even, fails the `gcd` test, and `attack` panics. -/
theorem attack_even_diff (fuel c0 c1 : Nat) (rest : List Nat) (hf : 255 ≤ fuel)
    (hc0 : c0 < 256) (hc1 : c1 < 256) (hne : c0 ≠ c1) (heven : (c0 + c1) % 2 = 0) :
    attack fuel (c0 :: c1 :: rest) = some (.error .keyRecovery) := by
  have hy : Int.tmod (c0 : Int) 256 = c0 := Int.tmod_eq_of_lt (by omega) (by omega)
  have hz : Int.tmod (c1 : Int) 256 = c1 := Int.tmod_eq_of_lt (by omega) (by omega)
  -- the candidate: 151 is the inverse of 39 modulo 256
  have hi0 : ∃ i0 : Nat, i0 < 256 ∧ 0 < i0 ∧ i0 % 2 = 0 ∧
      (39 * (i0 : Int)) % 256 = ((c0 : Int) - (c1 : Int)) % 256 := by
    refine ⟨((151 * ((c0 : Int) - (c1 : Int))) % 256).toNat, ?_, ?_, ?_, ?_⟩ <;> omega
  obtain ⟨i0, hi, hpos, hev, hda⟩ := hi0
  have hA : findA fuel (mod ((c0 : Int) - (c1 : Int)) 256) (List.range 256) (-1)
      = some (-1) := by
    obtain ⟨g, hg, hg1⟩ := gcd_256_returns fuel i0 hf hpos hi
    have hd : mod ((c0 : Int) - (c1 : Int)) 256 = mod (39 * (i0 : Int)) 256 := by
      rw [mod_256, mod_256]; exact hda.symm
    rw [findA_unique fuel _ i0 g hd hg (List.range 256) (-1) (List.nodup_range 256)
      (List.mem_range.mpr hi)
      (fun i hi2 h => mul39_inj i i0 (List.mem_range.mp hi2) hi (hd ▸ h).symm),
      if_neg (fun h1 => by have := hg1.mp h1; omega)]
  unfold attack
  simp only [hy, hz, hA]
  rw [if_pos (Or.inl trivial)]

end Affine

/-! ## Auxiliary facts: the Feistel byte transform -/

namespace Rdes

theorem xor_left_comm (x y z : Nat) : x ^^^ (y ^^^ z) = y ^^^ (x ^^^ z) := by
  rw [← Nat.xor_assoc, Nat.xor_comm x y, Nat.xor_assoc]

theorem f_round0 (x k1 k2 k3 : Nat) : f x k1 k2 k3 0 = x ^^^ k1 := rfl

theorem f_round1 (x k1 k2 k3 : Nat) : f x k1 k2 k3 1 = x ^^^ k2 := rfl

theorem f_round2 (x k1 k2 k3 : Nat) : f x k1 k2 k3 2 = x ^^^ k3 := rfl

theorem nibbles_lt (b : Nat) (hb : b < 256) : b >>> 4 < 16 ∧ b &&& 15 < 16 := by
  constructor
  · rw [Nat.shiftRight_eq_div_pow]; omega
  · exact Nat.and_lt_two_pow b (show 15 < 2 ^ 4 by decide)

theorem xor_lt_16 (x y : Nat) (hx : x < 16) (hy : y < 16) : x ^^^ y < 16 :=
  Nat.xor_lt_two_pow (n := 4) hx hy

/-- Splitting the recombined byte gives the two nibbles back. -/
theorem split_join : ∀ r < 16, ∀ l < 16,
    ((r <<< 4) % 256 ||| l) >>> 4 = r ∧ ((r <<< 4) % 256 ||| l) &&& 15 = l := by
  decide

set_option maxRecDepth 100000 in
/-- Recombining the two nibbles of a byte gives the byte back. -/
theorem join_split : ∀ b < 256, ((b >>> 4) <<< 4) % 256 ||| (b &&& 15) = b := by
  decide

/-- The three rounds of `encryptByte` in closed form, for any round keys. -/
theorem encryptByte_eq (b k1 k2 k3 : Nat) :
    encryptByte b k1 k2 k3
      = (((b &&& 15) ^^^ k2 ^^^ k3) <<< 4) % 256 ||| ((b >>> 4) ^^^ k1 ^^^ k2) := by
  have hm : (1 <<< 0 ||| 1 <<< 1 ||| 1 <<< 2 ||| 1 <<< 3) = 15 := by decide
  simp only [encryptByte, hm, List.foldl, step, f_round0, f_round1, f_round2]
  have e1 : (b &&& 15) ^^^ k1 ^^^ (b >>> 4) ^^^ k2 ^^^ (b &&& 15) = (b >>> 4) ^^^ k1 ^^^ k2 := by
    simp only [Nat.xor_assoc, Nat.xor_comm, xor_left_comm, Nat.xor_self, Nat.xor_zero,
      Nat.zero_xor, Nat.xor_cancel_left]
  have e2 : (b &&& 15) ^^^ k1 ^^^ (b >>> 4) ^^^ k2 ^^^ (b &&& 15) ^^^ k3
      ^^^ ((b &&& 15) ^^^ k1 ^^^ (b >>> 4)) = (b &&& 15) ^^^ k2 ^^^ k3 := by
    simp only [Nat.xor_assoc, Nat.xor_comm, xor_left_comm, Nat.xor_self, Nat.xor_zero,
      Nat.zero_xor, Nat.xor_cancel_left]
  rw [e2, e1]

/-- The three rounds of `decryptByte` in closed form, for any round keys. -/
theorem decryptByte_eq (b k1 k2 k3 : Nat) :
    decryptByte b k1 k2 k3
      = (((b &&& 15) ^^^ k1 ^^^ k2) <<< 4) % 256 ||| ((b >>> 4) ^^^ k2 ^^^ k3) := by
  have hm : (1 <<< 0 ||| 1 <<< 1 ||| 1 <<< 2 ||| 1 <<< 3) = 15 := by decide
  simp only [decryptByte, hm, List.foldl, step, f_round0, f_round1, f_round2]
  have e1 : (b &&& 15) ^^^ k3 ^^^ (b >>> 4) ^^^ k2 ^^^ (b &&& 15) = (b >>> 4) ^^^ k2 ^^^ k3 := by
    simp only [Nat.xor_assoc, Nat.xor_comm, xor_left_comm, Nat.xor_self, Nat.xor_zero,
      Nat.zero_xor, Nat.xor_cancel_left]
  have e2 : (b &&& 15) ^^^ k3 ^^^ (b >>> 4) ^^^ k2 ^^^ (b &&& 15) ^^^ k1
      ^^^ ((b &&& 15) ^^^ k3 ^^^ (b >>> 4)) = (b &&& 15) ^^^ k1 ^^^ k2 := by
    simp only [Nat.xor_assoc, Nat.xor_comm, xor_left_comm, Nat.xor_self, Nat.xor_zero,
      Nat.zero_xor, Nat.xor_cancel_left]
  rw [e2, e1]

/-- With round keys of four bits, `decryptByte` undoes `encryptByte`. -/
theorem decryptByte_encryptByte_nibble (b k1 k2 k3 : Nat) (hb : b < 256)
    (h1 : k1 < 16) (h2 : k2 < 16) (h3 : k3 < 16) :
    decryptByte (encryptByte b k1 k2 k3) k1 k2 k3 = b := by
  obtain ⟨hl, hr⟩ := nibbles_lt b hb
  have hR : (b &&& 15) ^^^ k2 ^^^ k3 < 16 := xor_lt_16 _ _ (xor_lt_16 _ _ hr h2) h3
  have hL : (b >>> 4) ^^^ k1 ^^^ k2 < 16 := xor_lt_16 _ _ (xor_lt_16 _ _ hl h1) h2
  obtain ⟨s1, s2⟩ := split_join _ hR _ hL
  rw [decryptByte_eq, encryptByte_eq, s1, s2]
  have e1 : (b >>> 4) ^^^ k1 ^^^ k2 ^^^ k1 ^^^ k2 = b >>> 4 := by
    simp only [Nat.xor_assoc, Nat.xor_comm, xor_left_comm, Nat.xor_self, Nat.xor_zero,
      Nat.zero_xor, Nat.xor_cancel_left]
  have e2 : (b &&& 15) ^^^ k2 ^^^ k3 ^^^ k2 ^^^ k3 = b &&& 15 := by
    simp only [Nat.xor_assoc, Nat.xor_comm, xor_left_comm, Nat.xor_self, Nat.xor_zero,
      Nat.zero_xor, Nat.xor_cancel_left]
  rw [e1, e2]
  exact join_split b hb

theorem feistel_encrypt_eq_map (input : List Nat) (k1 k2 k3 : Nat) :
    encrypt input k1 k2 k3 = input.map (fun c => encryptByte c k1 k2 k3) := by
  unfold encrypt; rw [foldl_append_eq_map]; rfl

theorem feistel_decrypt_eq_map (input : List Nat) (k1 k2 k3 : Nat) :
    decrypt input k1 k2 k3 = input.map (fun c => decryptByte c k1 k2 k3) := by
  unfold decrypt; rw [foldl_append_eq_map]; rfl

/-- Masking with four bits at position `s` and shifting down is taking the
nibble at position `s`. -/
theorem and_mask_shift (key s : Nat) : (key &&& (15 <<< s)) >>> s = key / 2 ^ s % 16 := by
  apply Nat.eq_of_testBit_eq
  intro i
  have h15 : (15 : Nat) = 2 ^ 4 - 1 := by decide
  have h16 : (16 : Nat) = 2 ^ 4 := by decide
  rw [h16, Nat.testBit_mod_two_pow, Nat.testBit_shiftRight, Nat.testBit_and,
    Nat.testBit_shiftLeft, h15, Nat.testBit_two_pow_sub_one, ← Nat.shiftRight_eq_div_pow,
    Nat.testBit_shiftRight]
  have e : s + i - s = i := by omega
  have e2 : (s + i ≥ s) = True := by simp
  simp only [e, e2, decide_True, Bool.true_and]
  rw [Bool.and_comm]

/-- The key schedule of the source is the key schedule of the specification. -/
theorem keyScheduler_eq_spec (key : Nat) : keyScheduler key = keyScheduleSpec key := by
  have m1 : (1 <<< 8 ||| 1 <<< 9 ||| 1 <<< 10 ||| 1 <<< 11) = 15 <<< 8 := by decide
  have m2 : (1 <<< 4 ||| 1 <<< 5 ||| 1 <<< 6 ||| 1 <<< 7) = 15 <<< 4 := by decide
  have m3 : (1 <<< 0 ||| 1 <<< 1 ||| 1 <<< 2 ||| 1 <<< 3) = 15 <<< 0 := by decide
  unfold keyScheduler keyScheduleSpec
  simp only [m1, m2, m3, and_mask_shift]
  have c1 : key / 2 ^ 8 % 16 % 256 = key / 2 ^ 8 % 16 := by omega
  have c2 : key / 2 ^ 4 % 16 % 256 = key / 2 ^ 4 % 16 := by omega
  have c3 : key / 2 ^ 0 % 16 % 256 = key % 16 := by omega
  rw [c1, c2, c3]

end Rdes

/-! ## Auxiliary facts: more fuel never changes a result -/

namespace Affine

theorem gcd_succ (fuel : Nat) : ∀ (a b g : Int), gcd fuel a b = some g →
    gcd (fuel + 1) a b = some g := by
  induction fuel with
  | zero =>
    intro a b g h
    unfold gcd at h ⊢
    by_cases he : a = b
    · rw [if_pos he] at h ⊢; exact h
    · rw [if_neg he] at h; cases h
  | succ k ih =>
    intro a b g h
    unfold gcd at h ⊢
    by_cases he : a = b
    · rw [if_pos he] at h ⊢; exact h
    · rw [if_neg he] at h ⊢
      by_cases hgt : a > b
      · rw [if_pos hgt] at h ⊢; exact ih _ _ _ h
      · rw [if_neg hgt] at h ⊢; exact ih _ _ _ h

theorem gcd_mono (fuel fuel2 : Nat) (hle : fuel ≤ fuel2) (a b g : Int)
    (h : gcd fuel a b = some g) : gcd fuel2 a b = some g := by
  induction hle with
  | refl => exact h
  | step _ ih => exact gcd_succ _ a b g ih

theorem findA_mono (fuel fuel2 : Nat) (hle : fuel ≤ fuel2) (d : Int) :
    ∀ (l : List Nat) (a r : Int), findA fuel d l a = some r → findA fuel2 d l a = some r := by
  intro l
  induction l with
  | nil => intro a r h; exact h
  | cons i rest ih =>
    intro a r h
    unfold findA at h ⊢
    by_cases hc : d = mod (39 * (i : Int)) 256
    · rw [if_pos hc] at h ⊢
      cases hg : gcd fuel 256 (i : Int) with
      | none => rw [hg] at h; cases h
      | some g =>
        rw [hg] at h
        rw [gcd_mono fuel fuel2 hle _ _ g hg]
        exact ih _ _ h
    · rw [if_neg hc] at h ⊢
      exact ih _ _ h

/-- Once `attack` has a result, more fuel gives the same result. -/
theorem attack_mono (fuel fuel2 : Nat) (hle : fuel ≤ fuel2) (input : List Nat)
    (r : Except Panic (List Nat)) (h : attack fuel input = some r) :
    attack fuel2 input = some r := by
  match input with
  | [] => exact h
  | [_] => exact h
  | c0 :: c1 :: rest =>
    unfold attack at h ⊢
    simp only [] at h ⊢
    cases hA : findA fuel (mod (Int.tmod (c0 : Int) 256 - Int.tmod (c1 : Int) 256) 256)
        (List.range 256) (-1) with
    | none => rw [hA] at h; cases h
    | some a =>
      rw [hA] at h
      rw [findA_mono fuel fuel2 hle _ _ _ a hA]
      exact h

/-- A buffer that `decrypt` returns has the length of its input. -/
theorem decrypt_length (input out : List Nat) (a b : Int) (h : decrypt input a b = .ok out) :
    out.length = input.length := by
  cases hm : modInverse a 256 with
  | none =>
    unfold decrypt at h
    rw [hm] at h
    cases h
  | some aInv =>
    rw [decrypt_eq_map input a b aInv hm] at h
    cases h
    exact List.length_map _ _

theorem encByte_congr (a b a2 b2 : Int) (ha : a2 % 256 = a % 256) (hb : b2 % 256 = b % 256)
    (c : Nat) : encByte a2 b2 c = encByte a b c := by
  rw [encByte_eq, encByte_eq, Int.add_emod, Int.mul_emod, ha, hb, ← Int.mul_emod,
    ← Int.add_emod]

end Affine

namespace Rdes

theorem keyScheduler_lt (key : Nat) :
    (keyScheduler key).1 < 16 ∧ (keyScheduler key).2.1 < 16 ∧ (keyScheduler key).2.2 < 16 := by
  rw [keyScheduler_eq_spec]
  unfold keyScheduleSpec
  have h1 : key / 2 ^ 8 % 16 < 16 := Nat.mod_lt _ (by decide)
  have h2 : key / 2 ^ 4 % 16 < 16 := Nat.mod_lt _ (by decide)
  have h3 : key % 16 < 16 := Nat.mod_lt _ (by decide)
  exact ⟨xor_lt_16 _ _ h1 h2, xor_lt_16 _ _ h2 h3, xor_lt_16 _ _ h3 h1⟩

end Rdes

/-! ## The properties of the specification -/

/-- C1: affine round trip.  For every byte buffer `input`, every integer `a`
coprime with 256 (negative values included) and every integer `b`,
decrypting the encryption of `input` under `(a, b)` succeeds and returns
`input`. -/
theorem affine_round_trip (input : List Nat) (a b : Int) (hin : IsBytes input)
    (ha : Int.gcd a 256 = 1) :
    Affine.decrypt (Affine.encrypt input a b) a b = .ok input := by
  obtain ⟨aInv, hm, _, _, hinv⟩ := Affine.modInverse_odd a ((Affine.gcd_256_eq_one_iff a).mp ha)
  rw [Affine.decrypt_eq_map _ a b aInv hm, Affine.encrypt_eq_map, List.map_map]
  congr 1
  conv_rhs => rw [← List.map_id input]
  apply List.map_congr_left
  intro c hc
  exact Affine.decByte_encByte a b aInv c (hin c hc) hinv

/-- C1 at the buffer `[255, 216, 7]` with the negative key `a = -77`. -/
theorem affine_round_trip_witness :
    IsBytes [255, 216, 7] ∧ Int.gcd (-77) 256 = 1 ∧
      Affine.decrypt (Affine.encrypt [255, 216, 7] (-77) 1234567) (-77) 1234567
        = .ok [255, 216, 7] :=
  ⟨by decide, by decide,
    affine_round_trip [255, 216, 7] (-77) 1234567 (by decide) (by decide)⟩

/-- C2: Feistel round trip under the key schedule.  For every key, with
`(k1, k2, k3) = keyScheduler key`, `decryptByte` undoes `encryptByte` on every
byte `b`, and `decrypt` undoes `encrypt` on every byte buffer `buf`. -/
theorem feistel_round_trip (key b : Nat) (buf : List Nat) (hb : b < 256) (hbuf : IsBytes buf) :
    Rdes.decryptByte
        (Rdes.encryptByte b (Rdes.keyScheduler key).1 (Rdes.keyScheduler key).2.1
          (Rdes.keyScheduler key).2.2)
        (Rdes.keyScheduler key).1 (Rdes.keyScheduler key).2.1 (Rdes.keyScheduler key).2.2 = b ∧
      Rdes.decrypt
        (Rdes.encrypt buf (Rdes.keyScheduler key).1 (Rdes.keyScheduler key).2.1
          (Rdes.keyScheduler key).2.2)
        (Rdes.keyScheduler key).1 (Rdes.keyScheduler key).2.1 (Rdes.keyScheduler key).2.2
        = buf := by
  obtain ⟨h1, h2, h3⟩ := Rdes.keyScheduler_lt key
  refine ⟨Rdes.decryptByte_encryptByte_nibble b _ _ _ hb h1 h2 h3, ?_⟩
  rw [Rdes.feistel_decrypt_eq_map, Rdes.feistel_encrypt_eq_map, List.map_map]
  conv_rhs => rw [← List.map_id buf]
  apply List.map_congr_left
  intro c hc
  exact Rdes.decryptByte_encryptByte_nibble c _ _ _ (hbuf c hc) h1 h2 h3

/-- C2 at the key `0xAE3`, the byte `0x5C` and the buffer `[0, 1, 128, 255]`. -/
theorem feistel_round_trip_witness :
    (0x5C < 256 ∧ IsBytes [0, 1, 128, 255]) ∧
      Rdes.decryptByte (Rdes.encryptByte 0x5C 4 13 9) 4 13 9 = 0x5C ∧
      Rdes.decrypt (Rdes.encrypt [0, 1, 128, 255] 4 13 9) 4 13 9 = [0, 1, 128, 255] :=
  ⟨⟨by decide, by decide⟩,
    feistel_round_trip 0xAE3 0x5C [0, 1, 128, 255] (by decide) (by decide)⟩

/-- C3: the attack recovers the plaintext.  For every plaintext that starts
with the bytes 255 and 216, every integer `a` coprime with 256 and every
integer `b`, `attack` on the encryption of the plaintext returns, once its
`gcd` calls may run 255 iterations, and returns the plaintext. -/
theorem attack_recovers_plaintext (fuel : Nat) (rest : List Nat) (a b : Int)
    (hf : 255 ≤ fuel) (hrest : IsBytes rest) (ha : Int.gcd a 256 = 1) :
    Affine.attack fuel (Affine.encrypt (255 :: 216 :: rest) a b)
      = some (.ok (255 :: 216 :: rest)) := by
  have hodd : a % 2 = 1 := (Affine.gcd_256_eq_one_iff a).mp ha
  have hp : IsBytes (255 :: 216 :: rest) := by
    intro x hx
    rcases List.mem_cons.mp hx with h | h
    · omega
    · rcases List.mem_cons.mp h with h | h
      · omega
      · exact hrest x h
  have ha0 : 0 ≤ a % 256 := Int.emod_nonneg _ (by decide)
  have hb0 : 0 ≤ b % 256 := Int.emod_nonneg _ (by decide)
  have hac : (((a % 256).toNat : Nat) : Int) = a % 256 := Int.toNat_of_nonneg ha0
  have hbc : (((b % 256).toNat : Nat) : Int) = b % 256 := Int.toNat_of_nonneg hb0
  have e0 : (Affine.encByte a b 255 : Int) = (a * 255 + b) % 256 := by
    rw [Affine.encByte_eq]; exact Int.toNat_of_nonneg (Int.emod_nonneg _ (by decide))
  have e1 : (Affine.encByte a b 216 : Int) = (a * 216 + b) % 256 := by
    rw [Affine.encByte_eq]; exact Int.toNat_of_nonneg (Int.emod_nonneg _ (by decide))
  have henc : Affine.encrypt (255 :: 216 :: rest) a b
      = Affine.encByte a b 255 :: Affine.encByte a b 216 :: rest.map (Affine.encByte a b) := by
    rw [Affine.encrypt_eq_map]; rfl
  have hatt := Affine.attack_of_keys fuel (Affine.encByte a b 255) (Affine.encByte a b 216)
    (a % 256).toNat (b % 256).toNat (rest.map (Affine.encByte a b)) hf
    (Affine.encByte_lt a b 255) (Affine.encByte_lt a b 216) (by omega) (by omega) (by omega)
    (by rw [hac, e0, e1]; omega) (by rw [hac, hbc, e0]; omega)
  rw [henc, hatt, ← henc]
  have hcong : Affine.encrypt (255 :: 216 :: rest) a b
      = Affine.encrypt (255 :: 216 :: rest) ((a % 256).toNat : Int) ((b % 256).toNat : Int) := by
    rw [Affine.encrypt_eq_map, Affine.encrypt_eq_map]
    apply List.map_congr_left
    intro c _
    exact (Affine.encByte_congr a b _ _ (by rw [hac]; omega) (by rw [hbc]; omega) c).symm
  rw [hcong]
  have hg : Int.gcd (((a % 256).toNat : Nat) : Int) 256 = 1 :=
    (Affine.gcd_256_eq_one_iff _).mpr (by rw [hac]; omega)
  obtain ⟨aInv, hm, _, _, hinv⟩ := Affine.modInverse_odd _ ((Affine.gcd_256_eq_one_iff _).mp hg)
  rw [Affine.decrypt_eq_map _ _ _ aInv hm, Affine.encrypt_eq_map, List.map_map]
  congr 2
  conv_rhs => rw [← List.map_id (255 :: 216 :: rest)]
  apply List.map_congr_left
  intro c hc
  exact Affine.decByte_encByte _ _ aInv c (hp c hc) hinv

/-- C3 at the plaintext `[255, 216, 1, 2, 3]` under the key `(-77, 1234567)`. -/
theorem attack_recovers_plaintext_witness :
    (255 ≤ 255 ∧ IsBytes [1, 2, 3] ∧ Int.gcd (-77) 256 = 1) ∧
      Affine.attack 255 (Affine.encrypt (255 :: 216 :: [1, 2, 3]) (-77) 1234567)
        = some (.ok (255 :: 216 :: [1, 2, 3])) :=
  ⟨⟨by decide, by decide, by decide⟩,
    attack_recovers_plaintext 255 [1, 2, 3] (-77) 1234567 (by decide) (by decide) (by decide)⟩

/-- C4: at the ciphertext `[5, 5]` no value of `i` meets the congruence with a
`gcd` call that returns 1, so no valid `a` exists; yet `attack` does not fail
with the key-recovery panic: whatever the fuel, it has no result, because the
call `gcd(256, 0)` at `i = 0` never returns. -/
theorem attack_equal_pair_never_fails :
    (∀ i : Nat, i < 256 →
        ¬ (Affine.mod (39 * (i : Int)) 256 = Affine.mod (5 - 5) 256 ∧
            ∃ fuel, Affine.gcd fuel 256 (i : Int) = some 1)) ∧
      ∀ fuel, Affine.attack fuel [5, 5] = none ∧
        Affine.attack fuel [5, 5] ≠ some (.error .keyRecovery) := by
  refine ⟨?_, fun fuel => ?_⟩
  · rintro i hi ⟨hc, fuel, hg⟩
    have h0 : i = 0 := Affine.mul39_inj i 0 hi (by decide) hc
    subst h0
    have hn : Affine.gcd fuel 256 ((0 : Nat) : Int) = none := Affine.gcd_256_zero fuel
    rw [hn] at hg
    cases hg
  · have h := Affine.attack_equal_leading fuel 5 []
    exact ⟨h, by rw [h]; exact fun hne => by cases hne⟩

/-- C5: affine `decrypt` fails exactly on the keys without inverse.  For every
buffer (the empty one included) and every `b`: `a` is not coprime with 256
exactly when it is even; `decrypt` panics with the invalid-key failure exactly
when `a` is even, and returns a buffer exactly when `a` is odd. -/
theorem decrypt_fails_iff_not_invertible (input : List Nat) (a b : Int) :
    (Int.gcd a 256 ≠ 1 ↔ a % 2 = 0) ∧
      (Affine.decrypt input a b = .error .invalidKey ↔ a % 2 = 0) ∧
      ((∃ out, Affine.decrypt input a b = .ok out) ↔ a % 2 = 1) := by
  have hg := Affine.gcd_256_eq_one_iff a
  refine ⟨by rw [Ne, hg]; omega, ?_, ?_⟩
  · constructor
    · intro h
      by_contra hodd
      obtain ⟨aInv, hm, _⟩ := Affine.modInverse_odd a (by omega)
      rw [Affine.decrypt_eq_map input a b aInv hm] at h
      cases h
    · intro h
      unfold Affine.decrypt
      rw [Affine.modInverse_even a h]
  · constructor
    · rintro ⟨out, h⟩
      by_contra hodd
      unfold Affine.decrypt at h
      rw [Affine.modInverse_even a (by omega)] at h
      cases h
    · intro h
      obtain ⟨aInv, hm, _⟩ := Affine.modInverse_odd a h
      exact ⟨_, Affine.decrypt_eq_map input a b aInv hm⟩

/-- C6: affine `encrypt` is total and equals its reference definition.  For
every byte buffer and all integers `a` and `b`, the result is the buffer whose
bytes are the canonical remainders of `a * x + b` modulo 256, each below 256;
and `encrypt [0] 2 5 = [5]`. -/
theorem encrypt_reference (input : List Nat) (a b : Int) :
    Affine.encrypt input a b
        = input.map (fun (x : Nat) => ((a * (x : Int) + b) % 256).toNat) ∧
      IsBytes (Affine.encrypt input a b) ∧
      Affine.encrypt [0] 2 5 = [5] := by
  have h : Affine.encrypt input a b
      = input.map (fun (x : Nat) => ((a * (x : Int) + b) % 256).toNat) := by
    rw [Affine.encrypt_eq_map]
    apply List.map_congr_left
    intro c _
    exact Affine.encByte_eq a b c
  refine ⟨h, ?_, by decide⟩
  rw [Affine.encrypt_eq_map]
  intro x hx
  obtain ⟨c, _, rfl⟩ := List.mem_map.mp hx
  exact Affine.encByte_lt a b c

/-- C7: length preservation.  For every buffer, affine `encrypt` under any
key, affine `decrypt` under any key with odd `a`, and Feistel `encrypt` and
`decrypt` under any round keys return a buffer of the length of the input;
each maps the empty buffer to the empty buffer. -/
theorem cipher_length_preserved (input : List Nat) (a b a2 b2 : Int) (k1 k2 k3 : Nat)
    (hodd : a2 % 2 = 1) :
    ((Affine.encrypt input a b).length = input.length ∧
      (∃ out, Affine.decrypt input a2 b2 = .ok out ∧ out.length = input.length) ∧
      (Rdes.encrypt input k1 k2 k3).length = input.length ∧
      (Rdes.decrypt input k1 k2 k3).length = input.length) ∧
    (Affine.encrypt [] a b = [] ∧ Affine.decrypt [] a2 b2 = .ok [] ∧
      Rdes.encrypt [] k1 k2 k3 = [] ∧ Rdes.decrypt [] k1 k2 k3 = []) := by
  obtain ⟨aInv, hm, _⟩ := Affine.modInverse_odd a2 hodd
  refine ⟨⟨?_, ?_, ?_, ?_⟩, rfl, ?_, rfl, rfl⟩
  · rw [Affine.encrypt_eq_map, List.length_map]
  · exact ⟨_, Affine.decrypt_eq_map input a2 b2 aInv hm, List.length_map _ _⟩
  · rw [Rdes.feistel_encrypt_eq_map, List.length_map]
  · rw [Rdes.feistel_decrypt_eq_map, List.length_map]
  · rw [Affine.decrypt_eq_map [] a2 b2 aInv hm]; rfl

/-- C7 at the buffer `[10, 20, 30]`. -/
theorem cipher_length_preserved_witness :
    (7 : Int) % 2 = 1 ∧
      (Affine.encrypt [10, 20, 30] 2 5).length = 3 ∧
      (∃ out, Affine.decrypt [10, 20, 30] 7 9 = .ok out ∧ out.length = 3) ∧
      (Rdes.encrypt [10, 20, 30] 4 13 9).length = 3 ∧
      (Rdes.decrypt [10, 20, 30] 4 13 9).length = 3 :=
  ⟨by decide, (cipher_length_preserved [10, 20, 30] 2 5 7 9 4 13 9 (by decide)).1⟩

/-- C8, as stated, fails: `attack` returns no buffer on the empty buffer
(it panics indexing `input[0]`), and none on `[5, 7]`, whose leading bytes
differ by an even amount (it panics with the key-recovery failure). -/
theorem attack_not_always_returns :
    (Affine.attack 0 [] = some (.error .indexOutOfRange) ∧
        ¬ ∃ fuel out, Affine.attack fuel [] = some (.ok out)) ∧
      (Affine.attack 255 [5, 7] = some (.error .keyRecovery) ∧
        ¬ ∃ fuel out, Affine.attack fuel [5, 7] = some (.ok out)) := by
  have h57 : ∀ fuel, 255 ≤ fuel → Affine.attack fuel [5, 7] = some (.error .keyRecovery) :=
    fun fuel hf => Affine.attack_even_diff fuel 5 7 [] hf (by decide) (by decide) (by decide)
      (by decide)
  refine ⟨⟨rfl, ?_⟩, h57 255 (Nat.le_refl _), ?_⟩
  · rintro ⟨fuel, out, h⟩
    cases h
  · rintro ⟨fuel, out, h⟩
    have h1 := Affine.attack_mono fuel (fuel + 255) (Nat.le_add_right _ _) _ _ h
    rw [h57 (fuel + 255) (Nat.le_add_left _ _)] at h1
    cases h1

/-- C8, amended: on every input buffer on which `attack` returns a buffer, the
returned buffer has the length of the input. -/
theorem attack_length (fuel : Nat) (input out : List Nat)
    (h : Affine.attack fuel input = some (.ok out)) : out.length = input.length := by
  match input with
  | [] => cases h
  | [_] => cases h
  | c0 :: c1 :: rest =>
    unfold Affine.attack at h
    simp only [] at h
    cases hA : Affine.findA fuel
        (Affine.mod (Int.tmod (c0 : Int) 256 - Int.tmod (c1 : Int) 256) 256)
        (List.range 256) (-1) with
    | none => rw [hA] at h; cases h
    | some a =>
      rw [hA] at h
      simp only [] at h
      split at h
      · cases h
      · exact Affine.decrypt_length _ out _ _ (Option.some.inj h)

/-- C8, amended, at the ciphertext `[4, 7, 9]`, on which `attack` finds the
key `(59, 63)` and returns `[255, 216, 190]`. -/
theorem attack_length_witness :
    Affine.attack 255 [4, 7, 9] = some (.ok [255, 216, 190]) ∧
      [255, 216, 190].length = [4, 7, 9].length :=
  have h : Affine.attack 255 [4, 7, 9] = some (.ok [255, 216, 190]) := by
    rw [Affine.attack_of_keys 255 4 7 59 63 [9] (Nat.le_refl _) (by decide) (by decide)
      (by decide) (by decide) (by decide) (by decide) (by decide)]
    rfl
  ⟨h, attack_length 255 [4, 7, 9] [255, 216, 190] h⟩

/-- C9: the key schedule.  For every key, `keyScheduler` returns
`(n1 xor n2, n2 xor n3, n3 xor n1)` with `n1` bits 8-11, `n2` bits 4-7 and
`n3` bits 0-3 of the key; each round key is below 16; the result depends only
on the low 12 bits of the key; and `keyScheduler 0xAE3 = (0x4, 0xD, 0x9)`. -/
theorem keyScheduler_spec (key : Nat) :
    Rdes.keyScheduler key
        = ((key / 2 ^ 8 % 16) ^^^ (key / 2 ^ 4 % 16), (key / 2 ^ 4 % 16) ^^^ (key % 16),
            (key % 16) ^^^ (key / 2 ^ 8 % 16)) ∧
      Rdes.keyScheduler key = Rdes.keyScheduleSpec key ∧
      ((Rdes.keyScheduler key).1 < 16 ∧ (Rdes.keyScheduler key).2.1 < 16 ∧
        (Rdes.keyScheduler key).2.2 < 16) ∧
      Rdes.keyScheduler key = Rdes.keyScheduler (key % 2 ^ 12) ∧
      Rdes.keyScheduler 0xAE3 = (0x4, 0xD, 0x9) := by
  refine ⟨Rdes.keyScheduler_eq_spec key, Rdes.keyScheduler_eq_spec key,
    Rdes.keyScheduler_lt key, ?_, by decide⟩
  rw [Rdes.keyScheduler_eq_spec, Rdes.keyScheduler_eq_spec]
  unfold Rdes.keyScheduleSpec
  have e1 : key % 2 ^ 12 / 2 ^ 8 % 16 = key / 2 ^ 8 % 16 := by omega
  have e2 : key % 2 ^ 12 / 2 ^ 4 % 16 = key / 2 ^ 4 % 16 := by omega
  have e3 : key % 2 ^ 12 % 16 = key % 16 := by omega
  simp only [e1, e2, e3]

/-- C10, as stated, fails: with the byte `0xF0` as first round key,
`decryptByte` does not undo `encryptByte` on the byte 0. -/
theorem feistel_byte_keys_not_inverse :
    (0 < 256 ∧ 0xF0 < 256) ∧ Rdes.encryptByte 0 0xF0 0 0 = 0xF0 ∧
      Rdes.decryptByte (Rdes.encryptByte 0 0xF0 0 0) 0xF0 0 0 = 0x0F ∧
      Rdes.decryptByte (Rdes.encryptByte 0 0xF0 0 0) 0xF0 0 0 ≠ 0 := by
  decide

/-- C10, amended: for every byte `b` and every three round keys below 16,
whether or not the key schedule produces them, `decryptByte` undoes
`encryptByte`. -/
theorem feistel_byte_round_trip (b k1 k2 k3 : Nat) (hb : b < 256)
    (h1 : k1 < 16) (h2 : k2 < 16) (h3 : k3 < 16) :
    Rdes.decryptByte (Rdes.encryptByte b k1 k2 k3) k1 k2 k3 = b :=
  Rdes.decryptByte_encryptByte_nibble b k1 k2 k3 hb h1 h2 h3

/-- C10, amended, at the byte `0xA7` and the round keys `(1, 2, 4)`, which no
key produces (their xor is not zero). -/
theorem feistel_byte_round_trip_witness :
    (0xA7 < 256 ∧ 1 < 16 ∧ 2 < 16 ∧ 4 < 16) ∧
      Rdes.decryptByte (Rdes.encryptByte 0xA7 1 2 4) 1 2 4 = 0xA7 :=
  ⟨by decide, feistel_byte_round_trip 0xA7 1 2 4 (by decide) (by decide) (by decide)
    (by decide)⟩

/-- C11: canonical `mod`.  For every integer `a`, negative ones included, and
every positive `n` of the `int` type, `mod a n` lies in `[0, n)`, is congruent
to `a` modulo `n` and is the Euclidean remainder of `a` by `n`; and
`mod (-1) 256 = 255`. -/
theorem mod_canonical (a n : Int) (hn : 0 < n) (hn2 : n < 2 ^ 63) :
    (0 ≤ Affine.mod a n ∧ Affine.mod a n < n) ∧
      Affine.mod a n ≡ a [ZMOD n] ∧
      Affine.mod a n = a % n ∧
      Affine.mod (-1) 256 = 255 := by
  have h := Affine.mod_eq_emod a n hn hn2
  refine ⟨⟨?_, ?_⟩, ?_, h, by decide⟩
  · rw [h]; exact Int.emod_nonneg a (Int.ne_of_gt hn)
  · rw [h]; exact Int.emod_lt_of_pos a hn
  · rw [h]; exact Int.mod_modEq a n

/-- C11 at `a = -1`, `n = 256`. -/
theorem mod_canonical_witness :
    ((0 : Int) < 256 ∧ (256 : Int) < 2 ^ 63) ∧
      (0 ≤ Affine.mod (-1) 256 ∧ Affine.mod (-1) 256 < 256) ∧
      Affine.mod (-1) 256 ≡ -1 [ZMOD 256] :=
  ⟨⟨by decide, by decide⟩, (mod_canonical (-1) 256 (by decide) (by decide)).1,
    (mod_canonical (-1) 256 (by decide) (by decide)).2.1⟩

/-- C12: the subtraction `gcd` on positive arguments.  For all positive `a`
and `b` of the `int` type the loop returns, after at most `max a b - 1`
iterations, the greatest common divisor of `a` and `b`; `gcd(256, 1)` returns
1 and `gcd(256, 128)` returns 128. -/
theorem gcd_correct (fuel : Nat) (a b : Int) (ha : 0 < a) (hb : 0 < b)
    (ha2 : a < 2 ^ 63) (hb2 : b < 2 ^ 63) (hf : max a b ≤ (fuel : Int) + 1) :
    Affine.gcd fuel a b = some ((Int.gcd a b : Nat) : Int) ∧
      Affine.gcd 255 256 1 = some 1 ∧ Affine.gcd 1 256 128 = some 128 := by
  refine ⟨?_, ?_, by decide⟩
  · obtain ⟨m, rfl⟩ : ∃ m : Nat, a = (m : Int) := Int.eq_ofNat_of_zero_le (Int.le_of_lt ha)
    obtain ⟨n, rfl⟩ : ∃ n : Nat, b = (n : Int) := Int.eq_ofNat_of_zero_le (Int.le_of_lt hb)
    have hmax : max m n ≤ fuel + 1 := by
      have h1 : (m : Int) ≤ (fuel : Int) + 1 := le_trans (le_max_left _ _) hf
      have h2 : (n : Int) ≤ (fuel : Int) + 1 := le_trans (le_max_right _ _) hf
      exact max_le (by omega) (by omega)
    exact Affine.gcd_returns fuel m n (by omega) (by omega) (by omega) (by omega) hmax
  · exact Affine.gcd_returns 255 256 1 (by decide) (by decide) (by decide) (by decide)
      (by decide)

/-- C12 at `gcd(12, 18)`, which returns 6 within 17 iterations. -/
theorem gcd_correct_witness :
    ((0 : Int) < 12 ∧ (0 : Int) < 18 ∧ (12 : Int) < 2 ^ 63 ∧ (18 : Int) < 2 ^ 63 ∧
        max (12 : Int) 18 ≤ ((17 : Nat) : Int) + 1) ∧
      Affine.gcd 17 12 18 = some 6 :=
  ⟨⟨by decide, by decide, by decide, by decide, by decide⟩,
    (gcd_correct 17 12 18 (by decide) (by decide) (by decide) (by decide) (by decide)).1⟩

/-! ## Auxiliary facts: the affine byte map and its inverse -/

namespace Affine

/-- Encrypting a decrypted byte with a key and an inverse of it gives the byte
back. -/
theorem encByte_decByte (a b aInv : Int) (c : Nat) (hc : c < 256)
    (hinv : (a * aInv) % 256 = 1) : encByte a b (decByte aInv b c) = c := by
  rw [encByte_eq, decByte_eq]
  have hnn : 0 ≤ (aInv * (c : Int) - aInv * b) % 256 := Int.emod_nonneg _ (by decide)
  rw [Int.toNat_of_nonneg hnn]
  have key : a * ((aInv * (c : Int) - aInv * b) % 256) + b ≡ (c : Int) [ZMOD 256] := by
    have h1 : a * aInv ≡ 1 [ZMOD 256] := hinv
    have e1 : a * (aInv * (c : Int) - aInv * b) + b = (a * aInv) * (c - b) + b := by ring
    have e2 : (1 : Int) * ((c : Int) - b) + b = c := by ring
    calc a * ((aInv * (c : Int) - aInv * b) % 256) + b
        ≡ a * (aInv * (c : Int) - aInv * b) + b [ZMOD 256] :=
          ((Int.mod_modEq _ _).mul_left a).add_right b
      _ = (a * aInv) * (c - b) + b := e1
      _ ≡ 1 * ((c : Int) - b) + b [ZMOD 256] := (h1.mul_right _).add_right b
      _ = c := e2
  have key2 : (a * ((aInv * (c : Int) - aInv * b) % 256) + b) % 256 = (c : Int) % 256 := key
  rw [key2]
  omega

end Affine

/-- C13: bijection criterion for the affine map.  For all integers `a` and
`b`, the byte map of `encrypt` (one output byte `encByte a b x`, the
remainder of `a * x + b` modulo 256, per input byte `x`) is a bijection of the
256 byte values exactly when `a` is coprime with 256, that is odd; and two
distinct bytes with the same encryption exist exactly when `a` is even. -/
theorem affine_bijective_iff (a b : Int) :
    (∀ x : Nat, Affine.encrypt [x] a b = [Affine.encByte a b x] ∧
        Affine.encByte a b x = (Affine.mod (a * (x : Int) + b) 256).toNat) ∧
      (Set.BijOn (Affine.encByte a b) (Set.Iio 256) (Set.Iio 256) ↔ Int.gcd a 256 = 1) ∧
      (Int.gcd a 256 = 1 ↔ a % 2 = 1) ∧
      ((∃ x y : Nat, x < 256 ∧ y < 256 ∧ x ≠ y ∧ Affine.encByte a b x = Affine.encByte a b y)
        ↔ a % 2 = 0) := by
  have hg := Affine.gcd_256_eq_one_iff a
  have hcoll : a % 2 = 0 → Affine.encByte a b 0 = Affine.encByte a b 128 := by
    intro h
    rw [Affine.encByte_eq, Affine.encByte_eq]
    congr 1
    push_cast
    omega
  have hinj : a % 2 = 1 → ∀ x y : Nat, x < 256 → y < 256 →
      Affine.encByte a b x = Affine.encByte a b y → x = y := by
    intro h x y hx hy he
    obtain ⟨aInv, _, _, _, hinv⟩ := Affine.modInverse_odd a h
    rw [← Affine.decByte_encByte a b aInv x hx hinv, he,
      Affine.decByte_encByte a b aInv y hy hinv]
  refine ⟨fun x => ⟨rfl, ?_⟩, ?_, hg, ?_⟩
  · rw [Affine.encByte_eq, Affine.mod_256]
  · constructor
    · intro hb
      by_contra hne
      have heven : a % 2 = 0 := by
        have : ¬ a % 2 = 1 := fun h => hne (hg.mpr h)
        omega
      have := hb.injOn (show (0 : Nat) ∈ Set.Iio 256 by simp)
        (show (128 : Nat) ∈ Set.Iio 256 by simp) (hcoll heven)
      omega
    · intro h1
      have hodd := hg.mp h1
      obtain ⟨aInv, _, _, _, hinv⟩ := Affine.modInverse_odd a hodd
      refine ⟨fun x _ => Affine.encByte_lt a b x, fun x hx y hy he => hinj hodd x y hx hy he, ?_⟩
      intro y hy
      refine ⟨Affine.decByte aInv b y, Affine.decByte_lt aInv b y, ?_⟩
      exact Affine.encByte_decByte a b aInv y hy hinv
  · constructor
    · rintro ⟨x, y, hx, hy, hne, he⟩
      by_contra hodd
      exact hne (hinj (by omega) x y hx hy he)
    · intro h
      exact ⟨0, 128, by decide, by decide, by decide, hcoll h⟩

/-- C14: affine `decrypt` equals its reference definition.  For every byte
buffer, every odd `a` and every `b`, `decrypt` returns the buffer whose bytes
are `mod (aInv * y - aInv * b) 256` for the input bytes `y`, where `aInv` is
the one value in `[0, 256)` with `a * aInv` congruent to 1 modulo 256. -/
theorem decrypt_reference (input : List Nat) (a b : Int) (ha : a % 2 = 1) :
    ∃ aInv : Int, (0 ≤ aInv ∧ aInv < 256 ∧ a * aInv ≡ 1 [ZMOD 256]) ∧
      (∀ j : Int, 0 ≤ j → j < 256 → a * j ≡ 1 [ZMOD 256] → j = aInv) ∧
      Affine.decrypt input a b
        = .ok (input.map fun (y : Nat) =>
            (Affine.mod (aInv * (y : Int) - aInv * b) 256).toNat) := by
  obtain ⟨aInv, hm, h0, h1, hinv⟩ := Affine.modInverse_odd a ha
  have hinv2 : a * aInv ≡ 1 [ZMOD 256] := hinv
  refine ⟨aInv, ⟨h0, h1, hinv2⟩, ?_, ?_⟩
  · intro j hj0 hj1 hj
    have e : j ≡ aInv [ZMOD 256] := by
      calc j = 1 * j := (Int.one_mul j).symm
        _ ≡ (a * aInv) * j [ZMOD 256] := (hinv2.symm).mul_right j
        _ = (a * j) * aInv := by ring
        _ ≡ 1 * aInv [ZMOD 256] := hj.mul_right aInv
        _ = aInv := Int.one_mul aInv
    have e2 : j % 256 = aInv % 256 := e
    omega
  · rw [Affine.decrypt_eq_map input a b aInv hm]
    congr 1
    apply List.map_congr_left
    intro y _
    rw [Affine.decByte_eq, Affine.mod_256]

/-- C14 at the buffer `[4, 7, 9]` and the key `(59, 63)`: the inverse of 59 is
243 and the result is `[255, 216, 190]`. -/
theorem decrypt_reference_witness :
    (59 : Int) % 2 = 1 ∧
      ∃ aInv : Int, (0 ≤ aInv ∧ aInv < 256 ∧ 59 * aInv ≡ 1 [ZMOD 256]) ∧
        (∀ j : Int, 0 ≤ j → j < 256 → 59 * j ≡ 1 [ZMOD 256] → j = aInv) ∧
        Affine.decrypt [4, 7, 9] 59 63
          = .ok ([4, 7, 9].map fun (y : Nat) =>
              (Affine.mod (aInv * (y : Int) - aInv * 63) 256).toNat) :=
  ⟨by decide, decrypt_reference [4, 7, 9] 59 63 (by decide)⟩

/-- C15: the Feistel buffer operations are byte-wise, without chaining.  For
every buffer and round keys, `encrypt` is the in-order map of `encryptByte`
and `decrypt` the in-order map of `decryptByte`; the output byte at an index is
the transform of the input byte at that index; and `encrypt` and `decrypt`
distribute over concatenation. -/
theorem feistel_bytewise (buf x y : List Nat) (k1 k2 k3 i : Nat) :
    (Rdes.encrypt buf k1 k2 k3 = buf.map (fun c => Rdes.encryptByte c k1 k2 k3) ∧
      Rdes.decrypt buf k1 k2 k3 = buf.map (fun c => Rdes.decryptByte c k1 k2 k3)) ∧
    ((Rdes.encrypt buf k1 k2 k3)[i]? = buf[i]?.map (fun c => Rdes.encryptByte c k1 k2 k3) ∧
      (Rdes.decrypt buf k1 k2 k3)[i]? = buf[i]?.map (fun c => Rdes.decryptByte c k1 k2 k3)) ∧
    (Rdes.encrypt (x ++ y) k1 k2 k3 = Rdes.encrypt x k1 k2 k3 ++ Rdes.encrypt y k1 k2 k3 ∧
      Rdes.decrypt (x ++ y) k1 k2 k3 = Rdes.decrypt x k1 k2 k3 ++ Rdes.decrypt y k1 k2 k3) := by
  simp only [Rdes.feistel_encrypt_eq_map, Rdes.feistel_decrypt_eq_map, List.getElem?_map,
    List.map_append, and_self]

/-! ## Auxiliary facts: the outcome of `attack` on every pair of leading bytes -/

namespace Affine

/-- With a positive first argument and a zero second argument the loop
subtracts zero for ever. -/
theorem gcd_pos_zero (fuel : Nat) (a : Int) (ha : 0 < a) (ha2 : a < 2 ^ 63) :
    gcd fuel a 0 = none := by
  induction fuel with
  | zero =>
    unfold gcd
    rw [if_neg (by omega)]
  | succ k ih =>
    unfold gcd
    rw [if_neg (by omega), if_pos (by omega), wrapInt_of_range _ (by omega) (by omega),
      Int.sub_zero]
    exact ih

/-- When the leading bytes differ by an odd amount, `attack` returns a buffer
that starts with the signature. -/
theorem attack_odd_diff (fuel c0 c1 : Nat) (rest : List Nat) (hf : 255 ≤ fuel)
    (hc0 : c0 < 256) (hc1 : c1 < 256) (hodd : (c0 + c1) % 2 = 1) :
    ∃ tail, attack fuel (c0 :: c1 :: rest) = some (.ok (255 :: 216 :: tail)) := by
  obtain ⟨a0, b0, ha, hb, hao, hda, hdb⟩ : ∃ a0 b0 : Nat, a0 < 256 ∧ b0 < 256 ∧ a0 % 2 = 1 ∧
      (39 * (a0 : Int)) % 256 = ((c0 : Int) - (c1 : Int)) % 256 ∧
      (255 * (a0 : Int) + (b0 : Int)) % 256 = (c0 : Int) := by
    refine ⟨((151 * ((c0 : Int) - (c1 : Int))) % 256).toNat,
      (((c0 : Int) + 151 * ((c0 : Int) - (c1 : Int))) % 256).toNat, ?_, ?_, ?_, ?_, ?_⟩ <;> omega
  obtain ⟨aInv, hm, _, _, hinv⟩ := modInverse_odd (a0 : Int) (by omega)
  have e0 : encByte (a0 : Int) (b0 : Int) 255 = c0 := by
    rw [encByte_eq]; push_cast; omega
  have e1 : encByte (a0 : Int) (b0 : Int) 216 = c1 := by
    rw [encByte_eq]; push_cast; omega
  have d0 : decByte aInv (b0 : Int) c0 = 255 := by
    rw [← e0]; exact decByte_encByte _ _ aInv 255 (by decide) hinv
  have d1 : decByte aInv (b0 : Int) c1 = 216 := by
    rw [← e1]; exact decByte_encByte _ _ aInv 216 (by decide) hinv
  refine ⟨rest.map (decByte aInv (b0 : Int)), ?_⟩
  rw [attack_of_keys fuel c0 c1 a0 b0 rest hf hc0 hc1 ha hb hao hda hdb,
    decrypt_eq_map _ _ _ aInv hm, List.map_cons, List.map_cons, d0, d1]

end Affine

/-- C16: the candidate searches of `attack` have exactly one match.  For every
`diff` in `[0, 256)` exactly one `i` in `[0, 256)` has `mod (39 * i) 256 = diff`;
for every `a` and `y` in `[0, 256)` exactly one `i` in `[0, 256)` has
`(255 * a + i) % 256 = y`; and both loops give the same result when they scan
the values of `i` in any other order. -/
theorem attack_search_unique (fuel diff a y : Nat) (l : List Nat)
    (hd : diff < 256) (ha : a < 256) (hy : y < 256) (hl : l.Perm (List.range 256)) :
    (∃! i : Nat, i < 256 ∧ Affine.mod (39 * (i : Int)) 256 = (diff : Int)) ∧
      (∃! i : Nat, i < 256 ∧ Int.tmod (255 * (a : Int) + (i : Int)) 256 = (y : Int)) ∧
      Affine.findA fuel diff l (-1) = Affine.findA fuel diff (List.range 256) (-1) ∧
      Affine.findB a y l (-1) = Affine.findB a y (List.range 256) (-1) := by
  have ht : ∀ i : Nat, Int.tmod (255 * (a : Int) + (i : Int)) 256
      = (255 * (a : Int) + (i : Int)) % 256 :=
    fun i => Int.tmod_eq_emod (by omega) (by decide)
  obtain ⟨i0, hi0, hi0e⟩ : ∃ i0 : Nat, i0 < 256 ∧
      (diff : Int) = Affine.mod (39 * (i0 : Int)) 256 := by
    refine ⟨(151 * diff) % 256, by omega, ?_⟩
    rw [Affine.mod_256]; push_cast; omega
  obtain ⟨j0, hj0, hj0e⟩ : ∃ j0 : Nat, j0 < 256 ∧
      Int.tmod (255 * (a : Int) + (j0 : Int)) 256 = (y : Int) := by
    refine ⟨(y + a) % 256, by omega, ?_⟩
    rw [ht]; push_cast; omega
  have huA : ∀ i : Nat, i < 256 → (diff : Int) = Affine.mod (39 * (i : Int)) 256 → i = i0 :=
    fun i hi he => Affine.mul39_inj i i0 hi hi0 (he.symm.trans hi0e)
  have huB : ∀ i : Nat, i < 256 → Int.tmod (255 * (a : Int) + (i : Int)) 256 = (y : Int) →
      i = j0 := by
    intro i hi he
    rw [ht] at he hj0e
    omega
  have hmem : ∀ i : Nat, i ∈ l ↔ i < 256 := fun i => by rw [hl.mem_iff, List.mem_range]
  have hnd : l.Nodup := hl.nodup_iff.mpr (List.nodup_range 256)
  refine ⟨⟨i0, ⟨hi0, hi0e.symm⟩, fun i hi => huA i hi.1 hi.2.symm⟩,
    ⟨j0, ⟨hj0, hj0e⟩, fun i hi => huB i hi.1 hi.2⟩, ?_, ?_⟩
  · cases hg : Affine.gcd fuel 256 (i0 : Int) with
    | none =>
      rw [Affine.findA_stuck fuel _ i0 hi0e hg l (-1) ((hmem i0).mpr hi0)
          (fun i hi => huA i ((hmem i).mp hi)),
        Affine.findA_stuck fuel _ i0 hi0e hg (List.range 256) (-1) (List.mem_range.mpr hi0)
          (fun i hi => huA i (List.mem_range.mp hi))]
    | some g =>
      rw [Affine.findA_unique fuel _ i0 g hi0e hg l (-1) hnd ((hmem i0).mpr hi0)
          (fun i hi => huA i ((hmem i).mp hi)),
        Affine.findA_unique fuel _ i0 g hi0e hg (List.range 256) (-1) (List.nodup_range 256)
          (List.mem_range.mpr hi0) (fun i hi => huA i (List.mem_range.mp hi))]
  · rw [Affine.findB_unique a y j0 hj0e l (-1) hnd ((hmem j0).mpr hj0)
        (fun i hi => huB i ((hmem i).mp hi)),
      Affine.findB_unique a y j0 hj0e (List.range 256) (-1) (List.nodup_range 256)
        (List.mem_range.mpr hj0) (fun i hi => huB i (List.mem_range.mp hi))]

/-- C16 at `diff = 253`, `a = 59`, `y = 4` and the descending scan. -/
theorem attack_search_unique_witness :
    (253 < 256 ∧ 59 < 256 ∧ 4 < 256 ∧ (List.range 256).reverse.Perm (List.range 256)) ∧
      (∃! i : Nat, i < 256 ∧ Affine.mod (39 * (i : Int)) 256 = ((253 : Nat) : Int)) ∧
      (∃! i : Nat, i < 256 ∧
        Int.tmod (255 * ((59 : Nat) : Int) + (i : Int)) 256 = ((4 : Nat) : Int)) ∧
      Affine.findA 255 (253 : Nat) (List.range 256).reverse (-1)
        = Affine.findA 255 (253 : Nat) (List.range 256) (-1) ∧
      Affine.findB (59 : Nat) (4 : Nat) (List.range 256).reverse (-1)
        = Affine.findB (59 : Nat) (4 : Nat) (List.range 256) (-1) :=
  ⟨⟨by decide, by decide, by decide, List.reverse_perm _⟩,
    attack_search_unique 255 253 59 4 (List.range 256).reverse (by decide) (by decide)
      (by decide) (List.reverse_perm _)⟩

/-- C17, as stated, fails in its last sentence: `gcd(a, 0)` returns for the
non-zero `a = -2 ^ 63`, the least value of the `int` type.  The first
iteration computes `b = 0 - a`, which wraps around to `a`, and the loop ends
with `a == b`. -/
theorem gcd_min_int_zero_returns :
    ((-2 ^ 63 : Int) ≠ 0 ∧ Affine.wrapInt (-2 ^ 63) = -2 ^ 63) ∧
      Affine.wrapInt (0 - -2 ^ 63) = -2 ^ 63 ∧
      Affine.gcd 1 (-2 ^ 63) 0 = some (-2 ^ 63) := by
  decide

/-- C17, amended: on every input buffer of at least two bytes whose first two
bytes are equal, `attack` has no result whatever the fuel, so it neither
returns a buffer nor fails with the key-recovery panic: the call `gcd(256, 0)`
at `i = 0` never returns, and `gcd(a, 0)` returns for no positive `a`. -/
theorem attack_diverges_equal_leading (fuel c : Nat) (rest : List Nat) (a : Int)
    (ha : 0 < a) (ha2 : a < 2 ^ 63) :
    (Affine.attack fuel (c :: c :: rest) = none ∧
      (∀ out, Affine.attack fuel (c :: c :: rest) ≠ some (.ok out)) ∧
      Affine.attack fuel (c :: c :: rest) ≠ some (.error .keyRecovery)) ∧
    Affine.gcd fuel 256 0 = none ∧ Affine.gcd fuel a 0 = none := by
  have h := Affine.attack_equal_leading fuel c rest
  refine ⟨⟨h, fun out => ?_, ?_⟩, Affine.gcd_256_zero fuel, Affine.gcd_pos_zero fuel a ha ha2⟩
  · rw [h]; exact fun hne => by cases hne
  · rw [h]; exact fun hne => by cases hne

/-- C17, amended, at the buffer `[7, 7, 1]`, the fuel 1000 and `a = 12`. -/
theorem attack_diverges_equal_leading_witness :
    ((0 : Int) < 12 ∧ (12 : Int) < 2 ^ 63) ∧
      Affine.attack 1000 [7, 7, 1] = none ∧ Affine.gcd 1000 12 0 = none :=
  ⟨⟨by decide, by decide⟩,
    (attack_diverges_equal_leading 1000 7 [1] 12 (by decide) (by decide)).1.1,
    (attack_diverges_equal_leading 1000 7 [1] 12 (by decide) (by decide)).2.2⟩

/-- C18: `attack` always produces the signature.  For every input buffer of at
least two bytes: when the first two bytes differ by an odd amount, `attack`
returns a buffer; and whenever `attack` returns a buffer, the first two bytes
differ by an odd amount and the returned buffer starts with the bytes 255 and
216. -/
theorem attack_signature (fuel c0 c1 : Nat) (rest : List Nat)
    (hc0 : c0 < 256) (hc1 : c1 < 256) :
    (((c0 : Int) - (c1 : Int)) % 2 = 1 → 255 ≤ fuel →
        ∃ tail, Affine.attack fuel (c0 :: c1 :: rest) = some (.ok (255 :: 216 :: tail))) ∧
      (∀ out, Affine.attack fuel (c0 :: c1 :: rest) = some (.ok out) →
        ((c0 : Int) - (c1 : Int)) % 2 = 1 ∧ ∃ tail, out = 255 :: 216 :: tail) := by
  constructor
  · intro hodd hf
    exact Affine.attack_odd_diff fuel c0 c1 rest hf hc0 hc1 (by omega)
  · intro out h
    have h1 := Affine.attack_mono fuel (fuel + 255) (Nat.le_add_right _ _) _ _ h
    by_cases heq : c0 = c1
    · subst heq
      rw [Affine.attack_equal_leading] at h1
      cases h1
    · by_cases hev : (c0 + c1) % 2 = 0
      · rw [Affine.attack_even_diff (fuel + 255) c0 c1 rest (Nat.le_add_left _ _) hc0 hc1 heq
          hev] at h1
        cases h1
      · obtain ⟨tail, ht⟩ := Affine.attack_odd_diff (fuel + 255) c0 c1 rest
          (Nat.le_add_left _ _) hc0 hc1 (by omega)
        rw [ht] at h1
        refine ⟨by omega, tail, ?_⟩
        cases h1
        rfl

/-- C18 at the ciphertext `[4, 7, 9]`, on which `attack` returns
`[255, 216, 190]`. -/
theorem attack_signature_witness :
    (4 < 256 ∧ 7 < 256) ∧
      (∃ tail, Affine.attack 255 [4, 7, 9] = some (.ok (255 :: 216 :: tail))) ∧
      (∀ out, Affine.attack 255 [4, 7, 9] = some (.ok out) →
        ((4 : Int) - 7) % 2 = 1 ∧ ∃ tail, out = 255 :: 216 :: tail) :=
  ⟨⟨by decide, by decide⟩,
    (attack_signature 255 4 7 [9] (by decide) (by decide)).1 (by decide) (Nat.le_refl _),
    (attack_signature 255 4 7 [9] (by decide) (by decide)).2⟩

/-! ## Auxiliary facts: nibbles, xor and the key schedule -/

namespace Rdes

theorem shl4_mod (x : Nat) (hx : x < 16) : (x <<< 4) % 256 = x <<< 4 := by
  rw [Nat.shiftLeft_eq]; omega

/-- Joining two nibbles commutes with xor. -/
theorem join_xor (r l R L : Nat) (hl : l < 16) (hL : L < 16) :
    ((r ^^^ R) <<< 4) ||| (l ^^^ L) = ((r <<< 4) ||| l) ^^^ ((R <<< 4) ||| L) := by
  apply Nat.eq_of_testBit_eq
  intro i
  simp only [Nat.testBit_or, Nat.testBit_xor, Nat.testBit_shiftLeft]
  by_cases hi : i ≥ 4
  · have h16 : 16 ≤ 2 ^ i :=
      le_trans (by decide : 16 ≤ 2 ^ 4) (Nat.pow_le_pow_right (by decide) hi)
    have e1 : l.testBit i = false := Nat.testBit_lt_two_pow (by omega)
    have e2 : L.testBit i = false := Nat.testBit_lt_two_pow (by omega)
    simp [hi, e1, e2]
  · simp [hi]

/-- Taking the nibble at position `s` commutes with xor. -/
theorem nibble_xor (x y s : Nat) :
    (x ^^^ y) / 2 ^ s % 16 = (x / 2 ^ s % 16) ^^^ (y / 2 ^ s % 16) := by
  apply Nat.eq_of_testBit_eq
  intro i
  have h16 : (16 : Nat) = 2 ^ 4 := by decide
  simp only [h16, ← Nat.shiftRight_eq_div_pow, Nat.testBit_mod_two_pow, Nat.testBit_xor,
    Nat.testBit_shiftRight]
  cases decide (i < 4) <;> simp

/-- The three round keys of a key xor to zero. -/
theorem keyScheduleSpec_xor (key : Nat) :
    (keyScheduleSpec key).1 ^^^ (keyScheduleSpec key).2.1 ^^^ (keyScheduleSpec key).2.2 = 0 := by
  simp only [keyScheduleSpec, Nat.xor_assoc, Nat.xor_comm, xor_left_comm, Nat.xor_self,
    Nat.xor_zero, Nat.zero_xor, Nat.xor_cancel_left]

/-- Flipping the same bits in the three nibbles of a key leaves the round keys
unchanged. -/
theorem keyScheduleSpec_shift (key c : Nat) (hc : c < 16) :
    keyScheduleSpec (key ^^^ (c * 0x111)) = keyScheduleSpec key := by
  have e3 : ∀ x : Nat, x % 16 = x / 2 ^ 0 % 16 := fun x => by simp
  have hall : ∀ d < 16, d * 0x111 / 2 ^ 8 % 16 = d ∧ d * 0x111 / 2 ^ 4 % 16 = d ∧
      d * 0x111 / 2 ^ 0 % 16 = d := by decide
  obtain ⟨c1, c2, c3⟩ := hall c hc
  unfold keyScheduleSpec
  simp only [e3 (key ^^^ (c * 0x111)), e3 key, nibble_xor, c1, c2, c3]
  simp only [Nat.xor_assoc, Nat.xor_comm, xor_left_comm, Nat.xor_self,
    Nat.xor_zero, Nat.zero_xor, Nat.xor_cancel_left]

end Rdes

/-- C19: closed form of the three-round Feistel byte transform.  For every
byte `b` and round keys below 16, `encryptByte` is
`(((b & 0xF) xor k2 xor k3) << 4) | ((b >> 4) xor k1 xor k2)` and `decryptByte`
is `(((b & 0xF) xor k1 xor k2) << 4) | ((b >> 4) xor k2 xor k3)`; each is the
nibble swap of `b` xored with a byte that depends on the keys alone. -/
theorem feistel_closed_form (b k1 k2 k3 : Nat) (hb : b < 256)
    (h1 : k1 < 16) (h2 : k2 < 16) (h3 : k3 < 16) :
    (Rdes.encryptByte b k1 k2 k3
        = (((b &&& 0xF) ^^^ k2 ^^^ k3) <<< 4) ||| ((b >>> 4) ^^^ k1 ^^^ k2) ∧
      Rdes.decryptByte b k1 k2 k3
        = (((b &&& 0xF) ^^^ k1 ^^^ k2) <<< 4) ||| ((b >>> 4) ^^^ k2 ^^^ k3)) ∧
    (Rdes.encryptByte b k1 k2 k3
        = (((b &&& 0xF) <<< 4) ||| (b >>> 4)) ^^^ (((k2 ^^^ k3) <<< 4) ||| (k1 ^^^ k2)) ∧
      Rdes.decryptByte b k1 k2 k3
        = (((b &&& 0xF) <<< 4) ||| (b >>> 4)) ^^^ (((k1 ^^^ k2) <<< 4) ||| (k2 ^^^ k3))) := by
  obtain ⟨hl, hr⟩ := Rdes.nibbles_lt b hb
  have hx : ∀ u v : Nat, u < 16 → v < 16 → u ^^^ v < 16 := Rdes.xor_lt_16
  have e : Rdes.encryptByte b k1 k2 k3
      = (((b &&& 0xF) ^^^ k2 ^^^ k3) <<< 4) ||| ((b >>> 4) ^^^ k1 ^^^ k2) := by
    rw [Rdes.encryptByte_eq, Rdes.shl4_mod _ (hx _ _ (hx _ _ hr h2) h3)]
  have d : Rdes.decryptByte b k1 k2 k3
      = (((b &&& 0xF) ^^^ k1 ^^^ k2) <<< 4) ||| ((b >>> 4) ^^^ k2 ^^^ k3) := by
    rw [Rdes.decryptByte_eq, Rdes.shl4_mod _ (hx _ _ (hx _ _ hr h1) h2)]
  refine ⟨⟨e, d⟩, ?_, ?_⟩
  · rw [e, Nat.xor_assoc, Nat.xor_assoc, Rdes.join_xor _ _ _ _ hl (hx _ _ h1 h2)]
  · rw [d, Nat.xor_assoc, Nat.xor_assoc, Rdes.join_xor _ _ _ _ hl (hx _ _ h2 h3)]

/-- C19 at the byte `0xA7` and the round keys `(4, 13, 9)`. -/
theorem feistel_closed_form_witness :
    (0xA7 < 256 ∧ 4 < 16 ∧ 13 < 16 ∧ 9 < 16) ∧
      Rdes.encryptByte 0xA7 4 13 9
        = (((0xA7 &&& 0xF) ^^^ 13 ^^^ 9) <<< 4) ||| ((0xA7 >>> 4) ^^^ 4 ^^^ 13) ∧
      Rdes.decryptByte 0xA7 4 13 9
        = (((0xA7 &&& 0xF) ^^^ 4 ^^^ 13) <<< 4) ||| ((0xA7 >>> 4) ^^^ 13 ^^^ 9) :=
  ⟨by decide,
    (feistel_closed_form 0xA7 4 13 9 (by decide) (by decide) (by decide) (by decide)).1⟩

/-- C20: the key schedule collapses the key space.  The three round keys of
every key `key0`, of 12 bits or more, xor to zero.  For every 12-bit key and every nibble `c`, the key
`key xor (c * 0x111)` is a 12-bit key with the round keys of `key`, distinct
nibbles give distinct keys, so at least 16 of the 12-bit keys have the round
keys of `key`; and Feistel `encrypt` and `decrypt` under the round keys of
`key xor (c * 0x111)` and of `key` agree on every buffer. -/
theorem key_schedule_collapse (key0 key c : Nat) (buf : List Nat)
    (hk : key < 4096) (hc : c < 16) :
    (Rdes.keyScheduler key0).1 ^^^ (Rdes.keyScheduler key0).2.1
        ^^^ (Rdes.keyScheduler key0).2.2 = 0 ∧
      (key ^^^ (c * 0x111) < 4096 ∧
        Rdes.keyScheduler (key ^^^ (c * 0x111)) = Rdes.keyScheduler key) ∧
      (∀ c2 : Nat, c2 < 16 → key ^^^ (c * 0x111) = key ^^^ (c2 * 0x111) → c = c2) ∧
      16 ≤ ((Finset.range 4096).filter
        (fun k2 => Rdes.keyScheduler k2 = Rdes.keyScheduler key)).card ∧
      (Rdes.encrypt buf (Rdes.keyScheduler (key ^^^ (c * 0x111))).1
          (Rdes.keyScheduler (key ^^^ (c * 0x111))).2.1
          (Rdes.keyScheduler (key ^^^ (c * 0x111))).2.2
        = Rdes.encrypt buf (Rdes.keyScheduler key).1 (Rdes.keyScheduler key).2.1
          (Rdes.keyScheduler key).2.2 ∧
        Rdes.decrypt buf (Rdes.keyScheduler (key ^^^ (c * 0x111))).1
          (Rdes.keyScheduler (key ^^^ (c * 0x111))).2.1
          (Rdes.keyScheduler (key ^^^ (c * 0x111))).2.2
        = Rdes.decrypt buf (Rdes.keyScheduler key).1 (Rdes.keyScheduler key).2.1
          (Rdes.keyScheduler key).2.2) := by
  have hsame : ∀ d : Nat, d < 16 →
      Rdes.keyScheduler (key ^^^ (d * 0x111)) = Rdes.keyScheduler key := by
    intro d hd
    rw [Rdes.keyScheduler_eq_spec, Rdes.keyScheduler_eq_spec, Rdes.keyScheduleSpec_shift key d hd]
  have hlt : ∀ d : Nat, d < 16 → key ^^^ (d * 0x111) < 4096 :=
    fun d hd => Nat.xor_lt_two_pow (n := 12) hk (by omega)
  have hinj : ∀ d e : Nat, key ^^^ (d * 0x111) = key ^^^ (e * 0x111) → d = e := by
    intro d e h
    have h2 : key ^^^ (key ^^^ (d * 0x111)) = key ^^^ (key ^^^ (e * 0x111)) := by rw [h]
    rw [Nat.xor_cancel_left, Nat.xor_cancel_left] at h2
    omega
  refine ⟨?_, ⟨hlt c hc, hsame c hc⟩, fun c2 _ h => hinj c c2 h, ?_, ?_⟩
  · rw [Rdes.keyScheduler_eq_spec]; exact Rdes.keyScheduleSpec_xor key0
  · have hcard : (Finset.range 16).card ≤ ((Finset.range 4096).filter
        (fun k2 => Rdes.keyScheduler k2 = Rdes.keyScheduler key)).card := by
      apply Finset.card_le_card_of_injOn (fun d => key ^^^ (d * 0x111))
      · intro d hd
        have hd2 : d < 16 := Finset.mem_range.mp hd
        exact Finset.mem_filter.mpr ⟨Finset.mem_range.mpr (hlt d hd2), hsame d hd2⟩
      · intro d _ e _ h
        exact hinj d e h
    rw [Finset.card_range] at hcard
    exact hcard
  · rw [hsame c hc]
    exact ⟨rfl, rfl⟩

/-- C20 at the key `0xAE3` and the nibble 5: the key `0xFB6` has the same
round keys. -/
theorem key_schedule_collapse_witness :
    (0xAE3 < 4096 ∧ 5 < 16) ∧
      (0xAE3 ^^^ (5 * 0x111) < 4096 ∧
        Rdes.keyScheduler (0xAE3 ^^^ (5 * 0x111)) = Rdes.keyScheduler 0xAE3) ∧
      0xAE3 ^^^ (5 * 0x111) = 0xFB6 :=
  ⟨by decide,
    (key_schedule_collapse (2 ^ 64 - 1) 0xAE3 5 [] (by decide) (by decide)).2.1, by decide⟩
